import Mathlib

set_option maxHeartbeats 2000000
set_option maxRecDepth 100000

namespace NIS

/-! Shallow embedding of the destroy-and-repair decoder step of
`src/nets/graph_layers.py` (`NNSDecoder.forward`, lines 541-772), of the
positional state simulation (`EmbeddingNet._position_embedding`, lines
1046-1102), and of the `argsort` predecessor view (line 283).

Score tables produced by the learned attention modules
(`NodePairRemovalDecoder`, `NodePairReinsertionDecoder`, the geometric cost
tables of the greedy baseline) enter the model as rational-valued inputs:
the claims under verification quantify over all learned weights, and after
`torch.tanh(x) * v_range` every entry of the learned tables is bounded by
`v_range` in absolute value, which is the only fact about them the decoder
logic uses.  The IEEE floating-point exponential inside `F.softmax` and the
logarithm inside `F.log_softmax` are transcendental, so they are embedded as
parameters `e, lg : ℚ → ℚ`; each theorem assumes of `e` exactly the facts of
IEEE `exp` it uses: `e x = 0` for `x ≤ -10^19` (`exp` underflows to exact
zero far above that point, and the mask sentinel is `-1e20`), `0 < e x` for
`-4000 ≤ x` (no underflow for range-bounded inputs), and `0 ≤ e x`
everywhere.  `torch.multinomial` is embedded by inverse-CDF sampling with an
explicit uniform draw `u`, and `torch.rand(...) < 0.1` gates by explicit
draws as well. -/

/-- The sentinel value the source writes into masked logit entries
(`-1e20`, lines 575, 709, 719). -/
def NEG20 : ℚ := -(10 ^ 20)

/-- Maximum entry of a list of rationals (`tensor.max()`); `0` on the empty
list, which never occurs in the modelled calls. -/
def listMaxQ : List ℚ → ℚ
  | [] => 0
  | a :: t => t.foldl max a

/-- `F.softmax(x, dim=-1)` as computed in floating point: weights
`e (x i - max x)` normalized by their sum, with `e` the model of IEEE
`exp`. -/
def softmaxShifted (e : ℚ → ℚ) (l : List ℚ) : List ℚ :=
  let M := listMaxQ l
  let w := l.map fun x => e (x - M)
  w.map fun x => x / w.sum

/-- `F.log_softmax(x, dim=-1)` with `lg` the model of IEEE `log`:
mathematically the composite of `log` after `softmax`. -/
def logSoftmaxShifted (lg e : ℚ → ℚ) (l : List ℚ) : List ℚ :=
  (softmaxShifted e l).map lg

/-- Inverse-CDF selection: the first index whose prefix sum exceeds the
draw.  `selectIdx p u` with `u` uniform on `[0, sum p)` selects index `i`
with probability `p i / sum p`, which is the sampling contract of
`torch.multinomial(p, 1)`. -/
def selectIdx : List ℚ → ℚ → ℕ
  | [], _ => 0
  | q :: t, u => if u < q then 0 else selectIdx t (u - q) + 1

/-- `weights.multinomial(1)` realized by the draw `u ∈ [0, 1)`:
`torch.multinomial` normalizes internally, so the draw is scaled by the
total weight. -/
def multinomialSel (w : List ℚ) (u : ℚ) : ℕ :=
  selectIdx w (u * w.sum)

/-- `tensor.max(-1)[1]`: index of the first maximal entry. -/
def argmaxIdx (l : List ℚ) : ℕ :=
  ((List.range l.length).argmax fun j => l.getD j 0).getD 0

/-- `tensor.squeeze()`: drops every dimension of extent one
(lines 421, 511, 570 apply it to the logit tables). -/
def torchSqueeze (shape : List ℕ) : List ℕ :=
  shape.filter fun d => d != 1

/-- Shape of the removal logit table after the `.squeeze()` calls of
line 421 (`NodePairRemovalDecoder.forward`) and line 570
(`NNSDecoder.forward`); before them the table is `(batch_size, n)`. -/
def removalTableShape (b n : ℕ) : List ℕ :=
  torchSqueeze [b, n]

/-- Shape of the reinsertion logit table after the `.squeeze()` call of
line 511 (`NodePairReinsertionDecoder.forward`); before it the table is
`(batch_size, 2n+1, 2n+1)`. -/
def reinsTableShape (b N : ℕ) : List ℕ :=
  torchSqueeze [b, N, N]

/-- The module-level selection-policy constants `TYPE_REMOVAL` and
`TYPE_REINSERTION` (lines 11-17) together with `self.training`. -/
structure Cfg where
  removalType : String
  reinsType : String
  training : Bool

/-- The random draws one decoder step consumes, one uniform `[0, 1)` draw
per `multinomial` or `torch.rand` site, per batch instance:
`uRem` (line 631), `gRem` and `uRemRand` (lines 623-626),
`uReins` (line 748), `gReins` and `uReinsRand` (lines 739-742), and the
`torch.rand(batch_size, n)` weight table of the uniform-random removal
policy (lines 581, 613). -/
structure Draws where
  uRem : ℕ → ℚ
  gRem : ℕ → ℚ
  uRemRand : ℕ → ℚ
  uReins : ℕ → ℚ
  gReins : ℕ → ℚ
  uReinsRand : ℕ → ℚ
  randRemW : ℕ → ℕ → ℚ

/-- Per-step inputs of `NNSDecoder.forward`.  `half` is the number of
request pairs `n` (`graph_size_plus1 // 2`).  `remTable` and `reinsTable`
are the `tanh`-bounded learned score tables of lines 568-571 and 649-654
(the reinsertion tables take the chosen removal index as an argument, since
`pos_pickup = 1 + action_removal` feeds the attention of line 651 and the
geometry of lines 661-705);
`remGreedyCost` and `reinsGreedy` are the geometric cost tables the greedy
baseline computes from `x_in` (lines 585-612 and 660-705).  `swapMask`
embeds `problem.get_swap_mask(action_removal + 1, visit_index, top2)`
(line 644) as a function of the instance, the chosen removal index, and the
two anchor positions.  `preAction` is column 0 of `pre_action` (the removal
component of the previous action), `fixedAction` the optional externally
fixed action triple. -/
structure Inputs where
  half : ℕ
  remTable : ℕ → ℕ → ℚ
  remGreedyCost : ℕ → ℕ → ℚ
  reinsTable : ℕ → ℕ → ℕ → ℕ → ℚ
  reinsGreedy : ℕ → ℕ → ℕ → ℕ → ℚ
  swapMask : ℕ → ℕ → ℕ → ℕ → Bool
  preAction : Option (ℕ → ℕ)
  fixedAction : Option (ℕ → ℕ × ℕ × ℕ)

/-- `graph_size_plus1 = 2n + 1`. -/
def gp1 (inp : Inputs) : ℕ := 2 * inp.half + 1

/-- Lines 574-575: the length-1 tabu on the previously removed pair.  The
guard of line 574 tests `pre_action[0, 0] > 0`, i.e. only the previous
removal index of batch instance 0; when it is positive, instance `i` has
entry `pre_action[i, 0]` of its removal logit row overwritten with
`-1e20`. -/
def removalMasked (inp : Inputs) (i j : ℕ) : ℚ :=
  match inp.preAction with
  | none => inp.remTable i j
  | some pa => if 0 < pa 0 ∧ j = pa i then NEG20 else inp.remTable i j

/-- The removal logit row of instance `i` after tabu masking
(`action_removal_table`, lines 568-575). -/
def removalRow (inp : Inputs) (i : ℕ) : List ℚ :=
  (List.range inp.half).map fun j => removalMasked inp i j

/-- `probs_removal = F.softmax(action_removal_table, dim=-1)` (line 579). -/
def removalProbs (e : ℚ → ℚ) (inp : Inputs) (i : ℕ) : List ℚ :=
  softmaxShifted e (removalRow inp i)

/-- The `torch.rand(batch_size, n)` weight row of the uniform-random
removal policy (line 581) and of the greedy epsilon fallback (line 613). -/
def randRemRow (d : Draws) (inp : Inputs) (i : ℕ) : List ℚ :=
  (List.range inp.half).map fun j => d.randRemW i j

/-- The geometric removal gain row of the greedy policy
(`probs_removal`, lines 605-612). -/
def greedyRemRow (inp : Inputs) (i : ℕ) : List ℚ :=
  (List.range inp.half).map fun j => inp.remGreedyCost i j

/-- The sampled removal index of the NNS policy (line 631). -/
def removalPickNNS (e : ℚ → ℚ) (inp : Inputs) (d : Draws) (i : ℕ) : ℕ :=
  multinomialSel (removalProbs e inp i) (d.uRem i)

/-- Lines 567-638 up to the choice of `action_removal`: the branch chain on
`TYPE_REMOVAL` (invalid names reach the `assert False` of lines 617 and
633), the fixed-action override of lines 619-620, the epsilon-greedy mix of
lines 622-629, and the multinomial of line 631. -/
def removalStage (cfg : Cfg) (e : ℚ → ℚ) (inp : Inputs) (d : Draws) (i : ℕ) :
    Except String ℕ :=
  if cfg.removalType = "NNS" ∨ cfg.removalType = "random" ∨
      cfg.removalType = "greedy" then
    match inp.fixedAction with
    | some fa => .ok (fa i).1
    | none =>
      if cfg.removalType = "greedy" then
        .ok (if d.gRem i < 1 / 10 then
              multinomialSel (randRemRow d inp i) (d.uRemRand i)
            else argmaxIdx (greedyRemRow inp i))
      else if cfg.removalType = "NNS" then
        .ok (removalPickNNS e inp d i)
      else
        .ok (multinomialSel (randRemRow d inp i) (d.uRem i))
  else .error "assert False"

/-- Lines 648-717: the branch chain producing `action_reinsertion_table`.
The third guard is `elif TYPE_REMOVAL == 'greedy':` in the source
(line 659) — it tests the REMOVAL constant, faithfully reproduced here — so
`TYPE_REINSERTION = 'greedy'` reaches the `assert False` of line 717
whenever `TYPE_REMOVAL` is not itself `'greedy'`. -/
def reinsTableChain (cfg : Cfg) (inp : Inputs) (i a : ℕ) :
    Except String (ℕ → ℕ → ℚ) :=
  if cfg.reinsType = "NNS" then .ok (inp.reinsTable i a)
  else if cfg.reinsType = "random" then .ok fun _ _ => 1
  else if cfg.removalType = "greedy" then .ok (inp.reinsGreedy i a)
  else .error "assert False"

/-- Lines 719-723: write `-1e20` into every cell `mask_table` marks, then
flatten the `(2n+1) × (2n+1)` grid row-major, so flat index `k` is cell
`(k / (2n+1), k % (2n+1))`. -/
def reinsMaskedFlat (inp : Inputs) (i a : ℕ) (tbl : ℕ → ℕ → ℚ) : List ℚ :=
  (List.range (gp1 inp * gp1 inp)).map fun k =>
    if inp.swapMask i a (k / gp1 inp) (k % gp1 inp) then NEG20
    else tbl (k / gp1 inp) (k % gp1 inp)

/-- `probs_reinsertion = F.softmax(action_reinsertion_table, dim=-1)`
(line 729). -/
def reinsProbs (e : ℚ → ℚ) (inp : Inputs) (i a : ℕ) (tbl : ℕ → ℕ → ℚ) :
    List ℚ :=
  softmaxShifted e (reinsMaskedFlat inp i a tbl)

/-- The all-ones table masked and flattened, used by the greedy epsilon
fallback (`action_reinsertion_table_random`, lines 706-715). -/
def onesMaskedFlat (inp : Inputs) (i a : ℕ) : List ℚ :=
  reinsMaskedFlat inp i a fun _ _ => 1

/-- The sampled flat reinsertion index of the NNS policy (line 748). -/
def reinsPickNNS (e : ℚ → ℚ) (inp : Inputs) (d : Draws) (i a : ℕ) : ℕ :=
  multinomialSel (reinsProbs e inp i a (inp.reinsTable i a)) (d.uReins i)

/-- Lines 731-750: the choice of `pair_index` — the fixed-action override
computing `p * (2n+1) + d` (lines 732-735), the epsilon-greedy mix of lines
739-745, and the multinomial of line 748 (the `else` of line 750 is
`assert False`). -/
def reinsChoice (cfg : Cfg) (e : ℚ → ℚ) (inp : Inputs) (d : Draws)
    (i a : ℕ) (tbl : ℕ → ℕ → ℚ) : Except String ℕ :=
  match inp.fixedAction with
  | some fa => .ok ((fa i).2.1 * gp1 inp + (fa i).2.2)
  | none =>
    if cfg.reinsType = "greedy" then
      .ok (if d.gReins i < 1 / 10 then
            multinomialSel (softmaxShifted e (onesMaskedFlat inp i a))
              (d.uReinsRand i)
          else argmaxIdx (reinsProbs e inp i a tbl))
    else if cfg.reinsType = "NNS" ∨ cfg.reinsType = "random" then
      .ok (multinomialSel (reinsProbs e inp i a tbl) (d.uReins i))
    else .error "assert False"

/-- `NNSDecoder.forward` (lines 541-772) for one batch instance `i`:
removal stage, reinsertion table chain, masking, reinsertion choice, action
assembly (`action = fixed_action` verbatim in fixed mode, line 736, else
the decoded `(a, pair_index // (2n+1), pair_index % (2n+1))` of lines
752-756), and the step log-likelihood of lines 634-638, 758-764: each
decoder contributes its gathered `log_softmax` entry exactly when the
corresponding policy constant is `'NNS'` and the module is in training
mode, else `0`.  `Except.error` marks the `assert False` statements.  (The
optional entropy of lines 766-771 is not part of any claim and is not
modelled.) -/
def nnsForward (cfg : Cfg) (lg e : ℚ → ℚ) (inp : Inputs) (d : Draws)
    (i : ℕ) : Except String ((ℕ × ℕ × ℕ) × ℚ) :=
  match removalStage cfg e inp d i with
  | .error s => .error s
  | .ok a =>
    let ll1 : ℚ :=
      if cfg.training = true ∧ cfg.removalType = "NNS" then
        (logSoftmaxShifted lg e (removalRow inp i)).getD a 0
      else 0
    match reinsTableChain cfg inp i a with
    | .error s => .error s
    | .ok tbl =>
      match reinsChoice cfg e inp d i a tbl with
      | .error s => .error s
      | .ok k =>
        let action : ℕ × ℕ × ℕ :=
          match inp.fixedAction with
          | some fa => fa i
          | none => (a, k / gp1 inp, k % gp1 inp)
        let ll2 : ℚ :=
          if cfg.training = true ∧ cfg.reinsType = "NNS" then
            (logSoftmaxShifted lg e (reinsMaskedFlat inp i a tbl)).getD k 0
          else 0
        .ok (action, ll1 + ll2)

/-! Embedding of `EmbeddingNet._position_embedding` (lines 1046-1102): the
sequential walk over the tour recording visit indices, the per-pickup stack
of opening times, and the per-node top-2 open-pickup snapshot. -/

/-- State of the simulation loop of lines 1060-1090: `visit` is
`visit_index`, `pre` the walk cursor, `stacks` the per-pickup opening-time
array (field `stackArr`, slot `0` the depot slot), `top2` the per-node pair of indices
written from `stacks.topk(2)[1]`. -/
structure SimSt where
  visit : ℕ → ℕ
  pre : ℕ
  stackArr : ℕ → ℚ
  top2 : ℕ → ℕ × ℕ

/-- Pointwise update of a stack array (`stacks[index] = value`). -/
def updFn (f : ℕ → ℚ) (k : ℕ) (v : ℚ) : ℕ → ℚ :=
  fun j => if j = k then v else f j

/-- `stacks.topk(2)[1]` over the `half+1` stack slots: the indices of the
two largest entries, largest first.  `torch.topk` does not specify its
tie-break (the source comments call it out, lines 1068, 1086); the model
resolves ties to the smallest index, and no claim depends on the choice
because the source keeps sentinel values strictly below the depot slot. -/
def topk2 (m : ℕ) (st : ℕ → ℚ) : ℕ × ℕ :=
  let i1 := ((List.range m).argmax st).getD 0
  let i2 := (((List.range m).filter fun j => j != i1).argmax st).getD 0
  (i1, i2)

/-- One iteration of the loop of lines 1072-1086, at loop counter `i`:
walk to `current_nodes = solution[pre]`, record `visit_index = i + 1`, open
the slot of a visited pickup with value `i + 1`, close the slot of a
visited delivery back to the `-0.01` sentinel, then write
`stacks.topk(2)[1]` into `top2` at the current node. -/
def simStep (half : ℕ) (sol : ℕ → ℕ) (s : SimSt) (i : ℕ) : SimSt :=
  let cur := sol s.pre
  let stacks1 :=
    if cur ≤ half ∧ 0 < cur then updFn s.stackArr cur ((i : ℚ) + 1)
    else if half < cur ∧ 0 < cur then updFn s.stackArr (cur - half) (-(1 / 100))
    else s.stackArr
  { visit := fun node => if node = cur then i + 1 else s.visit node
    pre := cur
    stackArr := stacks1
    top2 := fun node => if node = cur then topk2 (half + 1) stacks1 else s.top2 node }

/-- Initial state (lines 1060-1070): `visit_index` all zero, cursor at the
depot, stacks at `-0.01` except the depot slot which is reset to `0`, and a
zero `top2` buffer. -/
def simInit (half : ℕ) : SimSt :=
  { visit := fun _ => 0
    pre := 0
    stackArr := fun k => if k = 0 then 0 else -(1 / 100)
    top2 := fun _ => (0, 0) }

/-- The simulation after `t` iterations of the loop (the source runs it for
`t = seq_length = 2 * half + 1`). -/
def simRun (half : ℕ) (sol : ℕ → ℕ) (t : ℕ) : SimSt :=
  (List.range t).foldl (simStep half sol) (simInit half)

/-- The visit-index array the encoder returns (lines 1091-1100): the raw
ranks reduced modulo `seq_length = 2 * half + 1`. -/
def visitIndexOut (half : ℕ) (sol : ℕ → ℕ) (node : ℕ) : ℕ :=
  (simRun half sol (2 * half + 1)).visit node % (2 * half + 1)

/-- The node visited at loop counter `j`: the walk starts at the depot
successor `solution[0]`, so step `j` visits the `(j+1)`-st iterate of the
successor map at the depot. -/
def seqN (sol : ℕ → ℕ) (j : ℕ) : ℕ :=
  sol^[j + 1] 0

/-- Pickup `k` has been opened within the first `t` steps. -/
def openedAt (sol : ℕ → ℕ) (t k : ℕ) : Prop :=
  ∃ j < t, seqN sol j = k

/-- Pickup `k` has been closed (its delivery `k + half` visited) within the
first `t` steps. -/
def closedAt (sol : ℕ → ℕ) (half t k : ℕ) : Prop :=
  ∃ j < t, seqN sol j = k + half

/-- Pickup `k` is open after `t` steps: opened and not yet closed. -/
def openAt (sol : ℕ → ℕ) (half t k : ℕ) : Prop :=
  openedAt sol t k ∧ ¬ closedAt sol half t k

/-- At least two distinct pickups are open after `t` steps. -/
def twoOpen (sol : ℕ → ℕ) (half t : ℕ) : Prop :=
  ∃ k1 k2, k1 ≠ k2 ∧
    (1 ≤ k1 ∧ k1 ≤ half ∧ openAt sol half t k1) ∧
    (1 ≤ k2 ∧ k2 ≤ half ∧ openAt sol half t k2)

/-- `solution.argsort()` (line 283 and passim): the index list sorted by
value.  For a permutation this is its inverse. -/
def argsortL (s : List ℕ) : List ℕ :=
  (List.range s.length).mergeSort fun i j => s.getD i 0 ≤ s.getD j 0

/-! Generic lemmas about the numeric primitives. -/

lemma getD_map_of_lt {α β : Type} (f : α → β) (l : List α) (k : ℕ)
    (hk : k < l.length) (d : β) (d0 : α) :
    (l.map f).getD k d = f (l.getD k d0) := by
  rw [List.getD_eq_getElem _ _ (by simpa using hk),
    List.getD_eq_getElem _ _ hk, List.getElem_map]

lemma foldl_max_le_init (t : List ℚ) (a : ℚ) : a ≤ t.foldl max a := by
  induction t generalizing a with
  | nil => exact le_refl a
  | cons b t ih => exact le_trans (le_max_left a b) (ih (max a b))

lemma le_foldl_max_of_mem {x : ℚ} {t : List ℚ} (a : ℚ) (hx : x ∈ t) :
    x ≤ t.foldl max a := by
  induction t generalizing a with
  | nil => cases hx
  | cons b t ih =>
    rcases List.mem_cons.1 hx with h | h
    · subst h
      exact le_trans (le_max_right a x) (foldl_max_le_init t (max a x))
    · exact ih (max a b) h

lemma foldl_max_mem (t : List ℚ) (a : ℚ) : t.foldl max a ∈ a :: t := by
  induction t generalizing a with
  | nil => simp [List.foldl]
  | cons b t ih =>
    have h := ih (max a b)
    show t.foldl max (max a b) ∈ a :: b :: t
    rcases List.mem_cons.1 h with h1 | h1
    · rcases max_choice a b with h2 | h2
      · exact List.mem_cons.2 (Or.inl (h1.trans h2))
      · exact List.mem_cons.2 (Or.inr (List.mem_cons.2 (Or.inl (h1.trans h2))))
    · exact List.mem_cons.2 (Or.inr (List.mem_cons.2 (Or.inr h1)))

lemma le_listMaxQ {x : ℚ} {l : List ℚ} (hx : x ∈ l) : x ≤ listMaxQ l := by
  cases l with
  | nil => cases hx
  | cons a t =>
    rcases List.mem_cons.1 hx with h | h
    · subst h; exact foldl_max_le_init t x
    · exact le_foldl_max_of_mem a h

lemma listMaxQ_mem {l : List ℚ} (hl : l ≠ []) : listMaxQ l ∈ l := by
  cases l with
  | nil => exact absurd rfl hl
  | cons a t => exact foldl_max_mem t a

lemma sum_map_div (w : List ℚ) (S : ℚ) :
    (w.map fun x => x / S).sum = w.sum / S := by
  induction w with
  | nil => simp
  | cons a t ih => simp [ih, add_div]

lemma softmax_length (e : ℚ → ℚ) (l : List ℚ) :
    (softmaxShifted e l).length = l.length := by
  simp [softmaxShifted]

lemma softmax_getD (e : ℚ → ℚ) (l : List ℚ) (k : ℕ) (hk : k < l.length) :
    (softmaxShifted e l).getD k 0 =
      e (l.getD k 0 - listMaxQ l) /
        (l.map fun x => e (x - listMaxQ l)).sum := by
  unfold softmaxShifted
  rw [getD_map_of_lt _ _ k (by simpa using hk) 0 0,
    getD_map_of_lt _ _ k hk 0 0]

lemma softmax_sum (e : ℚ → ℚ) (l : List ℚ)
    (hS : (l.map fun x => e (x - listMaxQ l)).sum ≠ 0) :
    (softmaxShifted e l).sum = 1 := by
  unfold softmaxShifted
  rw [sum_map_div, div_self hS]

lemma selectIdx_ne_of_zero {p : List ℚ} {u : ℚ} {i : ℕ} (h0 : 0 ≤ u)
    (hz : p.getD i 0 = 0) (hi : i < p.length) : selectIdx p u ≠ i := by
  induction p generalizing u i with
  | nil => exact absurd hi (by simp)
  | cons q t ih =>
    cases i with
    | zero =>
      simp only [List.getD] at hz
      simp at hz
      subst hz
      simp [selectIdx, not_lt.2 h0]
    | succ n =>
      by_cases h : u < q
      · simp [selectIdx, h]
      · simp only [selectIdx, if_neg h]
        intro hcon
        have hn : selectIdx t (u - q) = n := by omega
        have h0q : (0 : ℚ) ≤ u - q := sub_nonneg.2 (not_lt.1 h)
        have hzt : t.getD n 0 = 0 := by simpa using hz
        have hit : n < t.length := by simpa using hi
        exact ih h0q hzt hit hn

lemma selectIdx_lt_and_pos {p : List ℚ} {u : ℚ}
    (hnn : ∀ x ∈ p, 0 ≤ x) (h0 : 0 ≤ u) (hu : u < p.sum) :
    selectIdx p u < p.length ∧ 0 < p.getD (selectIdx p u) 0 := by
  induction p generalizing u with
  | nil =>
    simp only [List.sum_nil] at hu
    exact absurd (lt_of_le_of_lt h0 hu) (lt_irrefl 0)
  | cons q t ih =>
    by_cases h : u < q
    · refine ⟨by simp [selectIdx, h], ?_⟩
      simp only [selectIdx, if_pos h]
      exact lt_of_le_of_lt h0 (by simpa using h)
    · have h0q : (0 : ℚ) ≤ u - q := sub_nonneg.2 (not_lt.1 h)
      have hut : u - q < t.sum := by
        simp only [List.sum_cons] at hu
        linarith
      have hnt : ∀ x ∈ t, 0 ≤ x := fun x hx => hnn x (List.mem_cons.2 (Or.inr hx))
      obtain ⟨h1, h2⟩ := ih hnt h0q hut
      refine ⟨?_, ?_⟩
      · simpa [selectIdx, if_neg h] using Nat.succ_lt_succ h1
      · simpa [selectIdx, if_neg h] using h2

lemma selectIdx_eq_of_prefix_zero {p : List ℚ} {u : ℚ} {i : ℕ}
    (hpref : ∀ j < i, p.getD j 0 = 0) (h0 : 0 ≤ u) (hu : u < p.getD i 0)
    (hi : i < p.length) : selectIdx p u = i := by
  induction p generalizing u i with
  | nil => exact absurd hi (by simp)
  | cons q t ih =>
    cases i with
    | zero =>
      have : u < q := by simpa using hu
      simp [selectIdx, this]
    | succ n =>
      have hq : q = 0 := by simpa using hpref 0 (Nat.succ_pos n)
      have h : ¬ u < q := by rw [hq]; exact not_lt.2 h0
      simp only [selectIdx, if_neg h]
      have hprt : ∀ j < n, t.getD j 0 = 0 := fun j hj => by
        simpa using hpref (j + 1) (Nat.succ_lt_succ hj)
      have hut : u - q < t.getD n 0 := by
        rw [hq, sub_zero]
        simpa using hu
      have h0q : (0 : ℚ) ≤ u - q := sub_nonneg.2 (not_lt.1 h)
      have hit : n < t.length := by simpa using hi
      rw [ih hprt h0q hut hit]

lemma getD_range_map {β : Type} (f : ℕ → β) (m k : ℕ) (hk : k < m) (d : β) :
    ((List.range m).map f).getD k d = f k := by
  rw [getD_map_of_lt f _ k (by simpa using hk) d 0,
    List.getD_eq_getElem _ _ (by simpa using hk), List.getElem_range]

lemma sum_eq_getD_of_others_zero {w : List ℚ} {k : ℕ}
    (h : ∀ j < w.length, j ≠ k → w.getD j 0 = 0) (hk : k < w.length) :
    w.sum = w.getD k 0 := by
  induction w generalizing k with
  | nil => exact absurd hk (by simp)
  | cons a t ih =>
    cases k with
    | zero =>
      have ht : t.sum = 0 := by
        apply List.sum_eq_zero
        intro x hx
        obtain ⟨j, hj, rfl⟩ := List.mem_iff_getElem.1 hx
        have := h (j + 1) (by simpa using Nat.succ_lt_succ hj) (Nat.succ_ne_zero j)
        rwa [List.getD_eq_getElem _ _ (by simpa using Nat.succ_lt_succ hj),
          List.getElem_cons_succ] at this
      simp [ht]
    | succ n =>
      have ha : a = 0 := by
        have := h 0 (Nat.succ_pos _) (Nat.succ_ne_zero n).symm
        simpa using this
      have hht : ∀ j < t.length, j ≠ n → t.getD j 0 = 0 := by
        intro j hj hjn
        have := h (j + 1) (by simpa using Nat.succ_lt_succ hj)
          (fun hc => hjn (Nat.succ_injective hc))
        simpa using this
      have := ih hht (by simpa using hk)
      simp [ha, this]

/-- Bounds on the running maximum of a masked logit list: every entry is
either the `-1e20` sentinel or bounded by `B`, and at least one entry is
unmasked, so the maximum is an unmasked entry. -/
lemma listMaxQ_of_masked {l : List ℚ} {B : ℚ} (hB : B ≤ 1000)
    (hall : ∀ x ∈ l, x = NEG20 ∨ |x| ≤ B)
    (hex : ∃ x ∈ l, x ≠ NEG20) :
    -B ≤ listMaxQ l ∧ |listMaxQ l| ≤ B := by
  obtain ⟨x, hxl, hxne⟩ := hex
  have hxB : |x| ≤ B := (hall x hxl).resolve_left hxne
  have hxlow : -B ≤ x := (abs_le.1 hxB).1
  have hxM : x ≤ listMaxQ l := le_listMaxQ hxl
  have hlow : -B ≤ listMaxQ l := le_trans hxlow hxM
  refine ⟨hlow, ?_⟩
  have hne : l ≠ [] := fun hc => by simp [hc] at hxl
  rcases hall _ (listMaxQ_mem hne) with hM | hM
  · exfalso
    rw [hM] at hlow
    have h20 : (10 : ℚ) ^ 20 ≤ B := by simpa [NEG20] using hlow
    have : ((10 : ℚ) ^ 20) ≤ 1000 := le_trans h20 hB
    norm_num at this
  · exact hM

/-- A masked entry of a bounded logit list gets probability exactly `0`
after the floating-point softmax: its shifted logit is below the underflow
threshold of `exp`. -/
lemma softmax_masked_zero {e : ℚ → ℚ} {l : List ℚ} {B : ℚ} {k : ℕ}
    (hB : B ≤ 1000)
    (he0 : ∀ x : ℚ, x ≤ -(10 ^ 19) → e x = 0)
    (hall : ∀ x ∈ l, x = NEG20 ∨ |x| ≤ B)
    (hex : ∃ x ∈ l, x ≠ NEG20)
    (hk : k < l.length) (hkm : l.getD k 0 = NEG20) :
    (softmaxShifted e l).getD k 0 = 0 := by
  rw [softmax_getD _ _ _ hk, hkm]
  have hM := (listMaxQ_of_masked hB hall hex).1
  have hcut : NEG20 - listMaxQ l ≤ -(10 ^ 19) := by
    have hB20 : B ≤ 1000 := hB
    simp only [NEG20] at *
    linarith
  rw [he0 _ hcut, zero_div]

/-- An unmasked (range-bounded) entry of a masked logit list gets strictly
positive probability after the floating-point softmax. -/
lemma softmax_unmasked_pos {e : ℚ → ℚ} {l : List ℚ} {B : ℚ} {k : ℕ}
    (hB : B ≤ 1000)
    (hepos : ∀ x : ℚ, -4000 ≤ x → 0 < e x)
    (henn : ∀ x : ℚ, 0 ≤ e x)
    (hall : ∀ x ∈ l, x = NEG20 ∨ |x| ≤ B)
    (hex : ∃ x ∈ l, x ≠ NEG20)
    (hk : k < l.length) (hkb : |l.getD k 0| ≤ B) :
    0 < (softmaxShifted e l).getD k 0 := by
  rw [softmax_getD _ _ _ hk]
  have hMb := (listMaxQ_of_masked hB hall hex).2
  have hBnn : 0 ≤ B := le_trans (abs_nonneg _) hkb
  have hx : (-4000 : ℚ) ≤ l.getD k 0 - listMaxQ l := by
    have h1 := abs_le.1 hkb
    have h2 := abs_le.1 hMb
    have := h1.1
    have := h2.2
    linarith
  have hw : 0 < e (l.getD k 0 - listMaxQ l) := hepos _ hx
  have hmem : l.getD k 0 ∈ l := by
    rw [List.getD_eq_getElem _ _ hk]
    exact List.getElem_mem hk
  have hwmem : e (l.getD k 0 - listMaxQ l) ∈
      l.map fun x => e (x - listMaxQ l) :=
    List.mem_map.2 ⟨_, hmem, rfl⟩
  have hS : 0 < (l.map fun x => e (x - listMaxQ l)).sum := by
    refine lt_of_lt_of_le hw (List.single_le_sum ?_ _ hwmem)
    intro y hy
    obtain ⟨x, _, rfl⟩ := List.mem_map.1 hy
    exact henn _
  exact div_pos hw hS

/-- Entries of a floating-point softmax output are nonnegative. -/
lemma softmax_nonneg {e : ℚ → ℚ} (henn : ∀ x : ℚ, 0 ≤ e x) (l : List ℚ) :
    ∀ x ∈ softmaxShifted e l, 0 ≤ x := by
  intro x hx
  unfold softmaxShifted at hx
  obtain ⟨y, hy, rfl⟩ := List.mem_map.1 hx
  refine div_nonneg ?_ (List.sum_nonneg ?_)
  · obtain ⟨z, _, rfl⟩ := List.mem_map.1 hy
    exact henn _
  · intro z hz
    obtain ⟨x2, _, rfl⟩ := List.mem_map.1 hz
    exact henn _

/-- The floating-point softmax of a masked bounded logit list with at least
one unmasked entry sums to exactly `1`. -/
lemma softmax_masked_sum_one {e : ℚ → ℚ} {l : List ℚ} {B : ℚ}
    (hB : B ≤ 1000)
    (hepos : ∀ x : ℚ, -4000 ≤ x → 0 < e x)
    (henn : ∀ x : ℚ, 0 ≤ e x)
    (hall : ∀ x ∈ l, x = NEG20 ∨ |x| ≤ B)
    (hex : ∃ x ∈ l, x ≠ NEG20) :
    (softmaxShifted e l).sum = 1 := by
  apply softmax_sum
  obtain ⟨x, hxl, hxne⟩ := hex
  have hxB : |x| ≤ B := (hall x hxl).resolve_left hxne
  have hMb := (listMaxQ_of_masked hB hall ⟨x, hxl, hxne⟩).2
  have hx : (-4000 : ℚ) ≤ x - listMaxQ l := by
    have h1 := abs_le.1 hxB
    have h2 := abs_le.1 hMb
    linarith [h1.1, h2.2]
  have hw : 0 < e (x - listMaxQ l) := hepos _ hx
  have hwmem : e (x - listMaxQ l) ∈ l.map fun y => e (y - listMaxQ l) :=
    List.mem_map.2 ⟨_, hxl, rfl⟩
  have hS : 0 < (l.map fun y => e (y - listMaxQ l)).sum := by
    refine lt_of_lt_of_le hw (List.single_le_sum ?_ _ hwmem)
    intro y hy
    obtain ⟨z, _, rfl⟩ := List.mem_map.1 hy
    exact henn _
  exact ne_of_gt hS

/-! Specializations to the flattened reinsertion grid and the removal row. -/

lemma gp1_pos (inp : Inputs) : 0 < gp1 inp := Nat.succ_pos _

lemma flatIdx_lt {N p0 d0 : ℕ} (hp : p0 < N) (hd : d0 < N) :
    p0 * N + d0 < N * N := by
  calc p0 * N + d0 < p0 * N + N := by omega
  _ = (p0 + 1) * N := by ring
  _ ≤ N * N := Nat.mul_le_mul_right N hp

lemma flatIdx_div {N p0 d0 : ℕ} (hN : 0 < N) (hd : d0 < N) :
    (p0 * N + d0) / N = p0 := by
  rw [mul_comm p0 N, Nat.mul_add_div hN, Nat.div_eq_of_lt hd, Nat.add_zero]

lemma flatIdx_mod {N p0 d0 : ℕ} (hd : d0 < N) :
    (p0 * N + d0) % N = d0 := by
  rw [mul_comm p0 N, Nat.mul_add_mod, Nat.mod_eq_of_lt hd]

lemma reinsFlat_length (inp : Inputs) (i a : ℕ) (tbl : ℕ → ℕ → ℚ) :
    (reinsMaskedFlat inp i a tbl).length = gp1 inp * gp1 inp := by
  simp [reinsMaskedFlat]

lemma reinsFlat_getD (inp : Inputs) (i a : ℕ) (tbl : ℕ → ℕ → ℚ) (k : ℕ)
    (hk : k < gp1 inp * gp1 inp) :
    (reinsMaskedFlat inp i a tbl).getD k 0 =
      if inp.swapMask i a (k / gp1 inp) (k % gp1 inp) then NEG20
      else tbl (k / gp1 inp) (k % gp1 inp) := by
  unfold reinsMaskedFlat
  exact getD_range_map _ _ k hk 0

lemma NEG20_ne_of_bounded {x B : ℚ} (hx : |x| ≤ B) (hB : B ≤ 1000) :
    x ≠ NEG20 := by
  intro hc
  subst hc
  have : |NEG20| ≤ 1000 := le_trans hx hB
  rw [NEG20] at this
  rw [abs_neg, abs_of_nonneg (by positivity)] at this
  norm_num at this

lemma reinsFlat_classify {inp : Inputs} {i a : ℕ} {tbl : ℕ → ℕ → ℚ} {B : ℚ}
    (htbl : ∀ p2 d2, p2 < gp1 inp → d2 < gp1 inp → |tbl p2 d2| ≤ B) :
    ∀ x ∈ reinsMaskedFlat inp i a tbl, x = NEG20 ∨ |x| ≤ B := by
  intro x hx
  unfold reinsMaskedFlat at hx
  obtain ⟨k, hk, rfl⟩ := List.mem_map.1 hx
  have hkN : k < gp1 inp * gp1 inp := List.mem_range.1 hk
  by_cases hm : inp.swapMask i a (k / gp1 inp) (k % gp1 inp)
  · left; simp [hm]
  · right
    simp only [hm, if_false, Bool.false_eq_true]
    exact htbl _ _ ((Nat.div_lt_iff_lt_mul (gp1_pos inp)).2 hkN)
      (Nat.mod_lt _ (gp1_pos inp))

lemma reinsFlat_exists_unmasked {inp : Inputs} {i a : ℕ} {tbl : ℕ → ℕ → ℚ}
    {B : ℚ} {p0 d0 : ℕ}
    (hp : p0 < gp1 inp) (hd : d0 < gp1 inp)
    (hmf : inp.swapMask i a p0 d0 = false)
    (htbl : |tbl p0 d0| ≤ B) (hB : B ≤ 1000) :
    ∃ x ∈ reinsMaskedFlat inp i a tbl, x ≠ NEG20 := by
  refine ⟨(reinsMaskedFlat inp i a tbl).getD (p0 * gp1 inp + d0) 0, ?_, ?_⟩
  · have hlen : p0 * gp1 inp + d0 < (reinsMaskedFlat inp i a tbl).length := by
      rw [reinsFlat_length]
      exact flatIdx_lt hp hd
    rw [List.getD_eq_getElem _ _ hlen]
    exact List.getElem_mem hlen
  · rw [reinsFlat_getD _ _ _ _ _ (flatIdx_lt hp hd),
      flatIdx_div (gp1_pos inp) hd, flatIdx_mod hd, hmf]
    simp only [Bool.false_eq_true, if_false]
    exact NEG20_ne_of_bounded htbl hB

lemma removalRow_length (inp : Inputs) (i : ℕ) :
    (removalRow inp i).length = inp.half := by
  simp [removalRow]

lemma removalRow_getD (inp : Inputs) (i j : ℕ) (hj : j < inp.half) :
    (removalRow inp i).getD j 0 = removalMasked inp i j := by
  unfold removalRow
  exact getD_range_map _ _ j hj 0

/-- When a single entry of a masked logit list is unmasked, the
floating-point softmax puts probability exactly `1` on it. -/
lemma softmax_single_one {e : ℚ → ℚ} {l : List ℚ} {B : ℚ} {k : ℕ}
    (hB : B ≤ 1000)
    (he0 : ∀ x : ℚ, x ≤ -(10 ^ 19) → e x = 0)
    (hepos : ∀ x : ℚ, -4000 ≤ x → 0 < e x)
    (hk : k < l.length) (hkb : |l.getD k 0| ≤ B)
    (hothers : ∀ j < l.length, j ≠ k → l.getD j 0 = NEG20) :
    (softmaxShifted e l).getD k 0 = 1 := by
  have hne : l ≠ [] :=
    List.ne_nil_of_length_pos (Nat.lt_of_le_of_lt (Nat.zero_le k) hk)
  have hMeq : listMaxQ l = l.getD k 0 := by
    obtain ⟨j, hj, hjeq⟩ := List.mem_iff_getElem.1 (listMaxQ_mem hne)
    by_cases hjk : j = k
    · subst hjk
      rw [List.getD_eq_getElem _ _ hk]
      exact hjeq.symm
    · exfalso
      have hjD : l.getD j 0 = listMaxQ l := by
        rw [List.getD_eq_getElem _ _ hj, hjeq]
      have hjm : l.getD j 0 = NEG20 := hothers j hj hjk
      have hkle : l.getD k 0 ≤ listMaxQ l := by
        apply le_listMaxQ
        rw [List.getD_eq_getElem _ _ hk]
        exact List.getElem_mem hk
      rw [← hjD, hjm, NEG20] at hkle
      have := (abs_le.1 hkb).1
      have hB2 : -B ≤ -(1000 : ℚ) + 999 := by linarith
      linarith
  rw [softmax_getD _ _ _ hk, hMeq, sub_self]
  have hwD : ∀ j < l.length, j ≠ k →
      (l.map fun x => e (x - l.getD k 0)).getD j 0 = 0 := by
    intro j hj hjk
    rw [getD_map_of_lt _ _ j hj 0 0, hothers j hj hjk]
    apply he0
    have := (abs_le.1 hkb).1
    simp only [NEG20]
    linarith
  have hwk : (l.map fun x => e (x - l.getD k 0)).getD k 0 = e 0 := by
    rw [getD_map_of_lt _ _ k hk 0 0, sub_self]
  have hS : (l.map fun x => e (x - l.getD k 0)).sum = e 0 := by
    rw [sum_eq_getD_of_others_zero (by simpa using hwD) (by simpa using hk), hwk]
  rw [hS]
  exact div_self (ne_of_gt (hepos 0 (by norm_num)))

/-- Reduction of `nnsForward` on the trained-policy sampling path:
both type constants `'NNS'`, no fixed action. -/
lemma nnsForward_nns_eq (cfg : Cfg) (lg e : ℚ → ℚ) (inp : Inputs)
    (d : Draws) (i : ℕ)
    (h1 : cfg.removalType = "NNS") (h2 : cfg.reinsType = "NNS")
    (hfix : inp.fixedAction = none) :
    nnsForward cfg lg e inp d i = Except.ok
      ((removalPickNNS e inp d i,
        reinsPickNNS e inp d i (removalPickNNS e inp d i) / gp1 inp,
        reinsPickNNS e inp d i (removalPickNNS e inp d i) % gp1 inp),
       (if cfg.training = true then
          (logSoftmaxShifted lg e (removalRow inp i)).getD
            (removalPickNNS e inp d i) 0
        else 0) +
       (if cfg.training = true then
          (logSoftmaxShifted lg e (reinsMaskedFlat inp i
              (removalPickNNS e inp d i)
              (inp.reinsTable i (removalPickNNS e inp d i)))).getD
            (reinsPickNNS e inp d i (removalPickNNS e inp d i)) 0
        else 0)) := by
  unfold nnsForward removalStage reinsTableChain reinsChoice
  rw [h1, h2, hfix]
  simp [reinsPickNNS]

/-- C1.  For every step, batch instance, and environment-supplied
feasibility mask that leaves at least one feasible cell (the environment
contract), the reinsertion decoder puts probability exactly `0` on every
cell the mask marks infeasible, never returns an action whose insertion
cell is masked, and when the mask of the chosen pair leaves exactly one
feasible cell, that cell carries probability `1` and is returned regardless
of the learned score table.  Hypotheses: the score table is the
`tanh * v_range` output (any entries bounded by `B ≤ 1000`), `e` satisfies
the IEEE-`exp` facts, and the uniform draw lies in `[0, 1)`. -/
theorem nns_reinsertion_mask_sound
    (cfg : Cfg) (lg e : ℚ → ℚ) (inp : Inputs) (d : Draws) (i : ℕ) (B : ℚ)
    (h1 : cfg.removalType = "NNS") (h2 : cfg.reinsType = "NNS")
    (hfix : inp.fixedAction = none)
    (hB : B ≤ 1000)
    (he0 : ∀ x : ℚ, x ≤ -(10 ^ 19) → e x = 0)
    (hepos : ∀ x : ℚ, -4000 ≤ x → 0 < e x)
    (henn : ∀ x : ℚ, 0 ≤ e x)
    (htbl : ∀ a p2 d2, p2 < gp1 inp → d2 < gp1 inp →
      |inp.reinsTable i a p2 d2| ≤ B)
    (hfeas : ∀ a, ∃ p2 d2, p2 < gp1 inp ∧ d2 < gp1 inp ∧
      inp.swapMask i a p2 d2 = false)
    (hu0 : 0 ≤ d.uReins i) (hu1 : d.uReins i < 1) :
    (∀ a p2 d2, p2 < gp1 inp → d2 < gp1 inp → inp.swapMask i a p2 d2 = true →
      (reinsProbs e inp i a (inp.reinsTable i a)).getD
        (p2 * gp1 inp + d2) 0 = 0) ∧
    (∀ r, nnsForward cfg lg e inp d i = Except.ok r →
      inp.swapMask i r.1.1 r.1.2.1 r.1.2.2 = false) ∧
    (∀ r, nnsForward cfg lg e inp d i = Except.ok r →
      ∀ p0 d0, p0 < gp1 inp → d0 < gp1 inp →
        inp.swapMask i r.1.1 p0 d0 = false →
        (∀ p2 d2, p2 < gp1 inp → d2 < gp1 inp →
          inp.swapMask i r.1.1 p2 d2 = false → p2 = p0 ∧ d2 = d0) →
        (reinsProbs e inp i r.1.1 (inp.reinsTable i r.1.1)).getD
          (p0 * gp1 inp + d0) 0 = 1 ∧
        r.1.2.1 = p0 ∧ r.1.2.2 = d0) := by
  have hexflat : ∀ a, ∃ x ∈ reinsMaskedFlat inp i a (inp.reinsTable i a),
      x ≠ NEG20 := by
    intro a
    obtain ⟨p2, d2, hp2, hd2, hm2⟩ := hfeas a
    exact reinsFlat_exists_unmasked hp2 hd2 hm2 (htbl a p2 d2 hp2 hd2) hB
  have hclass : ∀ a, ∀ x ∈ reinsMaskedFlat inp i a (inp.reinsTable i a),
      x = NEG20 ∨ |x| ≤ B := fun a => reinsFlat_classify (htbl a)
  have hzero : ∀ a p2 d2, p2 < gp1 inp → d2 < gp1 inp →
      inp.swapMask i a p2 d2 = true →
      (reinsProbs e inp i a (inp.reinsTable i a)).getD
        (p2 * gp1 inp + d2) 0 = 0 := by
    intro a p2 d2 hp2 hd2 hm2
    have hklt : p2 * gp1 inp + d2 < gp1 inp * gp1 inp := flatIdx_lt hp2 hd2
    have hkD : (reinsMaskedFlat inp i a (inp.reinsTable i a)).getD
        (p2 * gp1 inp + d2) 0 = NEG20 := by
      rw [reinsFlat_getD _ _ _ _ _ hklt, flatIdx_div (gp1_pos inp) hd2,
        flatIdx_mod hd2, hm2, if_pos rfl]
    exact softmax_masked_zero hB he0 (hclass a) (hexflat a)
      (by rw [reinsFlat_length]; exact hklt) hkD
  refine ⟨hzero, ?_, ?_⟩
  · intro r hr
    rw [nnsForward_nns_eq cfg lg e inp d i h1 h2 hfix] at hr
    cases Except.ok.inj hr
    set a0 := removalPickNNS e inp d i with ha0
    set l0 := reinsMaskedFlat inp i a0 (inp.reinsTable i a0) with hl0
    have hsum1 : (softmaxShifted e l0).sum = 1 :=
      softmax_masked_sum_one hB hepos henn (hclass a0) (hexflat a0)
    have hpick : reinsPickNNS e inp d i a0 =
        selectIdx (softmaxShifted e l0) (d.uReins i) := by
      simp only [reinsPickNNS, multinomialSel, reinsProbs]
      rw [← hl0, hsum1, mul_one]
    have hlt := selectIdx_lt_and_pos (softmax_nonneg henn (l0)) hu0
      (by rw [hsum1]; exact hu1)
    rw [← hpick] at hlt
    set k0 := reinsPickNNS e inp d i a0 with hk0
    have hk0len : k0 < l0.length := by
      have := hlt.1
      simpa [softmax_length] using this
    have hk0N : k0 < gp1 inp * gp1 inp := by
      rwa [hl0, reinsFlat_length] at hk0len
    by_contra hcon
    have hmt : inp.swapMask i a0 (k0 / gp1 inp) (k0 % gp1 inp) = true := by
      simpa using hcon
    have hkD : l0.getD k0 0 = NEG20 := by
      rw [hl0, reinsFlat_getD _ _ _ _ _ hk0N, hmt, if_pos rfl]
    have := softmax_masked_zero hB he0 (hclass a0) (hexflat a0) hk0len hkD
    exact absurd this (ne_of_gt hlt.2)
  · intro r hr p0 d0 hp0 hd0 hm0 huniq
    rw [nnsForward_nns_eq cfg lg e inp d i h1 h2 hfix] at hr
    cases Except.ok.inj hr
    set a0 := removalPickNNS e inp d i with ha0
    set l0 := reinsMaskedFlat inp i a0 (inp.reinsTable i a0) with hl0
    set k1 := p0 * gp1 inp + d0 with hk1
    have hk1N : k1 < gp1 inp * gp1 inp := flatIdx_lt hp0 hd0
    have hk1len : k1 < l0.length := by rw [hl0, reinsFlat_length]; exact hk1N
    have hk1D : l0.getD k1 0 = inp.reinsTable i a0 p0 d0 := by
      rw [hl0, reinsFlat_getD _ _ _ _ _ hk1N, hk1,
        flatIdx_div (gp1_pos inp) hd0, flatIdx_mod hd0, hm0]
      simp
    have hothers : ∀ j < l0.length, j ≠ k1 → l0.getD j 0 = NEG20 := by
      intro j hj hjk
      have hjN : j < gp1 inp * gp1 inp := by rwa [hl0, reinsFlat_length] at hj
      have hjp : j / gp1 inp < gp1 inp :=
        (Nat.div_lt_iff_lt_mul (gp1_pos inp)).2 hjN
      have hjd : j % gp1 inp < gp1 inp := Nat.mod_lt _ (gp1_pos inp)
      rw [hl0, reinsFlat_getD _ _ _ _ _ hjN]
      by_cases hmj : inp.swapMask i a0 (j / gp1 inp) (j % gp1 inp)
      · rw [if_pos hmj]
      · exfalso
        obtain ⟨hjp0, hjd0⟩ := huniq _ _ hjp hjd (by simpa using hmj)
        apply hjk
        rw [hk1, ← hjp0, ← hjd0, Nat.mul_comm (j / gp1 inp) (gp1 inp)]
        exact (Nat.div_add_mod j (gp1 inp)).symm
    have hone : (softmaxShifted e l0).getD k1 0 = 1 := by
      apply softmax_single_one hB he0 hepos hk1len
      · rw [hk1D]; exact htbl a0 p0 d0 hp0 hd0
      · exact hothers
    have hprefix : ∀ j < k1, (softmaxShifted e l0).getD j 0 = 0 := by
      intro j hj
      have hjlen : j < l0.length := lt_trans hj hk1len
      exact softmax_masked_zero hB he0 (hclass a0) (hexflat a0) hjlen
        (hothers j hjlen (Nat.ne_of_lt hj))
    have hsum1 : (softmaxShifted e l0).sum = 1 :=
      softmax_masked_sum_one hB hepos henn (hclass a0) (hexflat a0)
    have hsel : selectIdx (softmaxShifted e l0) (d.uReins i) = k1 := by
      apply selectIdx_eq_of_prefix_zero hprefix hu0
      · rw [hone]; exact hu1
      · simpa [softmax_length] using hk1len
    have hpick : reinsPickNNS e inp d i a0 = k1 := by
      simp only [reinsPickNNS, multinomialSel, reinsProbs]
      rw [← hl0, hsum1, mul_one, hsel]
    refine ⟨?_, ?_, ?_⟩
    · show (softmaxShifted e (reinsMaskedFlat inp i a0 (inp.reinsTable i a0))).getD k1 0 = 1
      rw [← hl0]; exact hone
    · show reinsPickNNS e inp d i a0 / gp1 inp = p0
      rw [hpick, hk1, flatIdx_div (gp1_pos inp) hd0]
    · show reinsPickNNS e inp d i a0 % gp1 inp = d0
      rw [hpick, hk1, flatIdx_mod hd0]

/-! Concrete instantiations used by witnesses and counterexamples. -/

/-- A concrete model of the IEEE `exp` facts: zero below the underflow
threshold, `1` elsewhere. -/
def eW : ℚ → ℚ := fun x => if x ≤ -(10 ^ 19) then 0 else 1

/-- A concrete stand-in for the `log` model (its values are irrelevant to
every claim except through the gathered entries). -/
def lgW : ℚ → ℚ := fun x => x

lemma eW_underflow : ∀ x : ℚ, x ≤ -(10 ^ 19) → eW x = 0 :=
  fun _ hx => if_pos hx

lemma eW_pos : ∀ x : ℚ, -4000 ≤ x → 0 < eW x := by
  intro x hx
  have hno : ¬ x ≤ -(10 ^ 19) := by
    intro hc
    have : (-4000 : ℚ) ≤ -(10 ^ 19) := le_trans hx hc
    norm_num at this
  rw [eW, if_neg hno]
  norm_num

lemma eW_nonneg : ∀ x : ℚ, 0 ≤ eW x := by
  intro x
  rw [eW]
  split <;> norm_num

/-- All-zero draws. -/
def dW0 : Draws :=
  ⟨fun _ => 0, fun _ => 0, fun _ => 0, fun _ => 0, fun _ => 0, fun _ => 0,
   fun _ _ => 0⟩

/-- Inputs for the C1 witness: one request pair, zero score tables, mask
free exactly at the cell `(0, 0)`. -/
def inpW1 : Inputs :=
  ⟨1, fun _ _ => 0, fun _ _ => 0, fun _ _ _ _ => 0, fun _ _ _ _ => 0,
   fun _ _ p2 d2 => !(p2 == 0 && d2 == 0), none, none⟩

/-- Witness for C1 at a concrete instance. -/
theorem nns_reinsertion_mask_sound_witness :
    ((6 : ℚ) ≤ 1000) ∧
    ((∀ a p2 d2, p2 < gp1 inpW1 → d2 < gp1 inpW1 →
        inpW1.swapMask 0 a p2 d2 = true →
        (reinsProbs eW inpW1 0 a (inpW1.reinsTable 0 a)).getD
          (p2 * gp1 inpW1 + d2) 0 = 0) ∧
      (∀ r, nnsForward ⟨"NNS", "NNS", false⟩ lgW eW inpW1 dW0 0 =
          Except.ok r →
        inpW1.swapMask 0 r.1.1 r.1.2.1 r.1.2.2 = false) ∧
      (∀ r, nnsForward ⟨"NNS", "NNS", false⟩ lgW eW inpW1 dW0 0 =
          Except.ok r →
        ∀ p0 d0, p0 < gp1 inpW1 → d0 < gp1 inpW1 →
          inpW1.swapMask 0 r.1.1 p0 d0 = false →
          (∀ p2 d2, p2 < gp1 inpW1 → d2 < gp1 inpW1 →
            inpW1.swapMask 0 r.1.1 p2 d2 = false → p2 = p0 ∧ d2 = d0) →
          (reinsProbs eW inpW1 0 r.1.1 (inpW1.reinsTable 0 r.1.1)).getD
            (p0 * gp1 inpW1 + d0) 0 = 1 ∧
          r.1.2.1 = p0 ∧ r.1.2.2 = d0)) :=
  ⟨by norm_num,
   nns_reinsertion_mask_sound ⟨"NNS", "NNS", false⟩ lgW eW inpW1 dW0 0 6
    rfl rfl rfl (by norm_num) eW_underflow eW_pos eW_nonneg
    (fun _ _ _ _ _ => by norm_num [inpW1])
    (fun a => ⟨0, 0, by norm_num [gp1, inpW1], by norm_num [gp1, inpW1], rfl⟩)
    le_rfl (by norm_num [dW0])⟩

/-- C2 (amended).  The tabu masking of lines 574-575 runs only when a
previous action exists AND the previous removal index of batch instance 0
is strictly positive.  Under that guard, the previously removed pair of
EVERY instance receives the `-1e20` logit, gets probability `0`, and is
never re-selected by the sampled removal. -/
theorem removal_tabu_amended
    (cfg : Cfg) (lg e : ℚ → ℚ) (inp : Inputs) (d : Draws) (i : ℕ) (B : ℚ)
    (pa : ℕ → ℕ)
    (h1 : cfg.removalType = "NNS") (h2 : cfg.reinsType = "NNS")
    (hfix : inp.fixedAction = none)
    (hpre : inp.preAction = some pa) (hguard : 0 < pa 0)
    (hpa : pa i < inp.half) (hhalf : 2 ≤ inp.half)
    (hB : B ≤ 1000)
    (he0 : ∀ x : ℚ, x ≤ -(10 ^ 19) → e x = 0)
    (hepos : ∀ x : ℚ, -4000 ≤ x → 0 < e x)
    (henn : ∀ x : ℚ, 0 ≤ e x)
    (htbl : ∀ j, j < inp.half → |inp.remTable i j| ≤ B)
    (hu0 : 0 ≤ d.uRem i) :
    removalMasked inp i (pa i) = NEG20 ∧
    (removalProbs e inp i).getD (pa i) 0 = 0 ∧
    (∀ r, nnsForward cfg lg e inp d i = Except.ok r → r.1.1 ≠ pa i) := by
  have hmask : removalMasked inp i (pa i) = NEG20 := by
    simp [removalMasked, hpre, hguard]
  have hclass : ∀ x ∈ removalRow inp i, x = NEG20 ∨ |x| ≤ B := by
    intro x hx
    unfold removalRow at hx
    obtain ⟨j, hj, rfl⟩ := List.mem_map.1 hx
    have hjh : j < inp.half := List.mem_range.1 hj
    simp only [removalMasked, hpre]
    by_cases hg : 0 < pa 0 ∧ j = pa i
    · left; rw [if_pos hg]
    · right; rw [if_neg hg]; exact htbl j hjh
  have hexj : ∃ j0, j0 < inp.half ∧ j0 ≠ pa i := by
    by_cases h : pa i = 0
    · exact ⟨1, by omega, by omega⟩
    · exact ⟨0, by omega, fun hc => h hc.symm⟩
  have hex : ∃ x ∈ removalRow inp i, x ≠ NEG20 := by
    obtain ⟨j0, hj0, hj0ne⟩ := hexj
    refine ⟨(removalRow inp i).getD j0 0, ?_, ?_⟩
    · rw [List.getD_eq_getElem _ _ (by simpa [removalRow_length] using hj0)]
      exact List.getElem_mem _
    · rw [removalRow_getD _ _ _ hj0]
      simp only [removalMasked, hpre]
      rw [if_neg (fun hc => hj0ne hc.2)]
      exact NEG20_ne_of_bounded (htbl j0 hj0) hB
  have hzero : (removalProbs e inp i).getD (pa i) 0 = 0 := by
    apply softmax_masked_zero hB he0 hclass hex
      (by simpa [removalRow_length] using hpa)
    rw [removalRow_getD _ _ _ hpa]
    exact hmask
  refine ⟨hmask, hzero, ?_⟩
  intro r hr
  rw [nnsForward_nns_eq cfg lg e inp d i h1 h2 hfix] at hr
  cases Except.ok.inj hr
  show removalPickNNS e inp d i ≠ pa i
  rw [removalPickNNS, multinomialSel]
  apply selectIdx_ne_of_zero
  · refine mul_nonneg hu0 (List.sum_nonneg ?_)
    exact softmax_nonneg henn _
  · exact hzero
  · simpa [removalProbs, softmax_length, removalRow_length] using hpa

/-- Previous-action column for the amended-C2 witness. -/
def paA2 : ℕ → ℕ := fun _ => 1

/-- Inputs for the amended-C2 witness: two pairs, tabu guard active. -/
def inpA2 : Inputs :=
  ⟨2, fun _ _ => 0, fun _ _ => 0, fun _ _ _ _ => 0, fun _ _ _ _ => 0,
   fun _ _ _ _ => false, some paA2, none⟩

/-- Witness for the amended C2 at a concrete instance. -/
theorem removal_tabu_amended_witness :
    0 < paA2 0 ∧
    (removalMasked inpA2 0 (paA2 0) = NEG20 ∧
      (removalProbs eW inpA2 0).getD (paA2 0) 0 = 0 ∧
      (∀ r, nnsForward ⟨"NNS", "NNS", true⟩ lgW eW inpA2 dW0 0 =
          Except.ok r → r.1.1 ≠ paA2 0)) :=
  ⟨by decide,
   removal_tabu_amended ⟨"NNS", "NNS", true⟩ lgW eW inpA2 dW0 0 6 paA2
    rfl rfl rfl rfl (by decide) (by decide) (by decide) (by norm_num)
    eW_underflow eW_pos eW_nonneg
    (fun _ _ => by norm_num [inpA2]) (by norm_num [dW0])⟩

/-- Previous-action column for the C2 counterexample: the previous removal
index of batch instance 0 is `0`, a legitimate pair index. -/
def paC2 : ℕ → ℕ := fun _ => 0

/-- Inputs for the C2 counterexample: two pairs, previous action present
with removal index 0, so the guard `pre_action[0, 0] > 0` is false and no
tabu is applied. -/
def inpC2 : Inputs :=
  ⟨2, fun _ _ => 0, fun _ _ => 0, fun _ _ _ _ => 0, fun _ _ _ _ => 0,
   fun _ _ _ _ => false, some paC2, none⟩

unseal Rat.add Rat.sub Rat.mul Rat.inv Nat.gcd in
/-- Counterexample to C2 as stated: a previous action exists (with removal
index `0` on instance 0), yet the decoder samples removal index `0` again —
the draw `u = 0` realizes an outcome of probability `1/2`, so re-selection
is possible and "never re-selects" is false.  The guard of line 574 skips
the tabu whenever `pre_action[0, 0] == 0`. -/
theorem removal_tabu_cex :
    inpC2.preAction = some paC2 ∧ paC2 0 = 0 ∧
    nnsForward ⟨"NNS", "NNS", false⟩ lgW eW inpC2 dW0 0 =
      Except.ok ((0, 0, 0), 0) :=
  ⟨rfl, rfl, by rfl⟩

/-- C3 (amended).  When the supplied mask marks every cell infeasible, the
decoder does NOT fail: every logit becomes `-1e20`, the shifted softmax
degenerates to the uniform distribution `1/(2n+1)^2` over all cells, and
the decoder returns an action whose insertion cell is marked infeasible. -/
theorem reinsertion_allmasked_amended
    (cfg : Cfg) (lg e : ℚ → ℚ) (inp : Inputs) (d : Draws) (i : ℕ)
    (h1 : cfg.removalType = "NNS") (h2 : cfg.reinsType = "NNS")
    (hfix : inp.fixedAction = none)
    (hall : ∀ a p2 d2, p2 < gp1 inp → d2 < gp1 inp →
      inp.swapMask i a p2 d2 = true)
    (hepos : ∀ x : ℚ, -4000 ≤ x → 0 < e x)
    (hu0 : 0 ≤ d.uReins i) (hu1 : d.uReins i < 1) :
    (∀ a k, k < gp1 inp * gp1 inp →
      (reinsProbs e inp i a (inp.reinsTable i a)).getD k 0 =
        1 / ((gp1 inp * gp1 inp : ℕ) : ℚ)) ∧
    (∃ r, nnsForward cfg lg e inp d i = Except.ok r ∧
      inp.swapMask i r.1.1 r.1.2.1 r.1.2.2 = true) := by
  have he0pos : 0 < e 0 := hepos 0 (by norm_num)
  have hconst : ∀ a, ∀ x ∈ reinsMaskedFlat inp i a (inp.reinsTable i a),
      x = NEG20 := by
    intro a x hx
    unfold reinsMaskedFlat at hx
    obtain ⟨k, hk, rfl⟩ := List.mem_map.1 hx
    have hkN : k < gp1 inp * gp1 inp := List.mem_range.1 hk
    rw [hall a _ _ ((Nat.div_lt_iff_lt_mul (gp1_pos inp)).2 hkN)
      (Nat.mod_lt _ (gp1_pos inp)), if_pos rfl]
  have hlen : ∀ a, (reinsMaskedFlat inp i a (inp.reinsTable i a)).length =
      gp1 inp * gp1 inp := fun a => reinsFlat_length inp i a _
  have hMax : ∀ a,
      listMaxQ (reinsMaskedFlat inp i a (inp.reinsTable i a)) = NEG20 := by
    intro a
    have hne : reinsMaskedFlat inp i a (inp.reinsTable i a) ≠ [] := by
      apply List.ne_nil_of_length_pos
      rw [hlen a]
      exact Nat.mul_pos (gp1_pos inp) (gp1_pos inp)
    exact hconst a _ (listMaxQ_mem hne)
  have hWsum : ∀ a,
      ((reinsMaskedFlat inp i a (inp.reinsTable i a)).map
        fun x => e (x - listMaxQ (reinsMaskedFlat inp i a
          (inp.reinsTable i a)))).sum = ((gp1 inp * gp1 inp : ℕ) : ℚ) * e 0 := by
    intro a
    have hval : ∀ y ∈ (reinsMaskedFlat inp i a (inp.reinsTable i a)).map
        fun x => e (x - listMaxQ (reinsMaskedFlat inp i a
          (inp.reinsTable i a))), y = e 0 := by
      intro y hy
      obtain ⟨x, hx, rfl⟩ := List.mem_map.1 hy
      rw [hconst a x hx, hMax a, sub_self]
    rw [List.sum_eq_card_nsmul _ _ hval]
    simp [hlen a, nsmul_eq_mul]
  have hprob : ∀ a k, k < gp1 inp * gp1 inp →
      (reinsProbs e inp i a (inp.reinsTable i a)).getD k 0 =
        1 / ((gp1 inp * gp1 inp : ℕ) : ℚ) := by
    intro a k hk
    rw [reinsProbs, softmax_getD _ _ _ (by rw [hlen a]; exact hk)]
    have hkD : (reinsMaskedFlat inp i a (inp.reinsTable i a)).getD k 0 =
        NEG20 := by
      refine hconst a _ ?_
      rw [List.getD_eq_getElem _ _ (by rw [hlen a]; exact hk)]
      exact List.getElem_mem _
    rw [hWsum a, hkD, hMax a, sub_self]
    rw [mul_comm, ← div_div, div_self (ne_of_gt he0pos)]
  refine ⟨hprob, ?_⟩
  refine ⟨_, nnsForward_nns_eq cfg lg e inp d i h1 h2 hfix, ?_⟩
  set a0 := removalPickNNS e inp d i with ha0
  have hsum1 : (softmaxShifted e
      (reinsMaskedFlat inp i a0 (inp.reinsTable i a0))).sum = 1 := by
    apply softmax_sum
    rw [hWsum a0]
    have hNpos : (0 : ℚ) < ((gp1 inp * gp1 inp : ℕ) : ℚ) := by
      exact_mod_cast Nat.mul_pos (gp1_pos inp) (gp1_pos inp)
    exact ne_of_gt (mul_pos hNpos he0pos)
  have hnn : ∀ x ∈ softmaxShifted e
      (reinsMaskedFlat inp i a0 (inp.reinsTable i a0)), 0 ≤ x := by
    intro x hx
    obtain ⟨j, hj, rfl⟩ := List.mem_iff_getElem.1 hx
    have hjN : j < gp1 inp * gp1 inp := by
      rw [softmax_length, hlen a0] at hj
      exact hj
    have hval := hprob a0 j hjN
    simp only [reinsProbs] at hval
    rw [← List.getD_eq_getElem _ 0, hval]
    positivity
  have hpick : reinsPickNNS e inp d i a0 =
      selectIdx (softmaxShifted e
        (reinsMaskedFlat inp i a0 (inp.reinsTable i a0))) (d.uReins i) := by
    simp only [reinsPickNNS, multinomialSel, reinsProbs]
    rw [hsum1, mul_one]
  have hlt := selectIdx_lt_and_pos hnn hu0 (by rw [hsum1]; exact hu1)
  rw [← hpick] at hlt
  have hk0N : reinsPickNNS e inp d i a0 < gp1 inp * gp1 inp := by
    have := hlt.1
    rwa [softmax_length, hlen a0] at this
  exact hall a0 _ _ ((Nat.div_lt_iff_lt_mul (gp1_pos inp)).2 hk0N)
    (Nat.mod_lt _ (gp1_pos inp))

/-- Inputs for the C3 counterexample: one pair, the mask marks every cell
infeasible. -/
def inpC3 : Inputs :=
  ⟨1, fun _ _ => 0, fun _ _ => 0, fun _ _ _ _ => 0, fun _ _ _ _ => 0,
   fun _ _ _ _ => true, none, none⟩

unseal Rat.add Rat.sub Rat.mul Rat.inv Nat.gcd in
/-- Counterexample to C3 as stated: with an all-infeasible mask the decoder
raises no error; it returns the action `(0, 0, 0)` whose insertion cell
`(0, 0)` is marked infeasible (the uniform fallback after all logits
collapse to the same `-1e20`). -/
theorem reinsertion_allmasked_cex :
    inpC3.swapMask = (fun _ _ _ _ => true) ∧
    nnsForward ⟨"NNS", "NNS", false⟩ lgW eW inpC3 dW0 0 =
      Except.ok ((0, 0, 0), 0) ∧
    inpC3.swapMask 0 0 0 0 = true :=
  ⟨rfl, by rfl, rfl⟩

/-- Witness for the amended C3 at a concrete all-masked instance. -/
theorem reinsertion_allmasked_amended_witness :
    (∀ a p2 d2, p2 < gp1 inpC3 → d2 < gp1 inpC3 →
      inpC3.swapMask 0 a p2 d2 = true) ∧
    ((∀ a k, k < gp1 inpC3 * gp1 inpC3 →
      (reinsProbs eW inpC3 0 a (inpC3.reinsTable 0 a)).getD k 0 =
        1 / ((gp1 inpC3 * gp1 inpC3 : ℕ) : ℚ)) ∧
    (∃ r, nnsForward ⟨"NNS", "NNS", true⟩ lgW eW inpC3 dW0 0 =
        Except.ok r ∧
      inpC3.swapMask 0 r.1.1 r.1.2.1 r.1.2.2 = true)) :=
  ⟨fun _ _ _ _ _ => rfl,
   reinsertion_allmasked_amended ⟨"NNS", "NNS", true⟩ lgW eW inpC3 dW0 0
    rfl rfl rfl (fun _ _ _ _ _ => rfl) eW_pos (le_refl 0)
    (by norm_num [dW0])⟩

/-- Reduction of `nnsForward` in fixed-action mode with the trained policy:
the action is returned verbatim and the log-probabilities are gathered at
the indices determined by `fixed_action`. -/
lemma nnsForward_fixed_eq (cfg : Cfg) (lg e : ℚ → ℚ) (inp : Inputs)
    (d : Draws) (i : ℕ) (fa : ℕ → ℕ × ℕ × ℕ)
    (h1 : cfg.removalType = "NNS") (h2 : cfg.reinsType = "NNS")
    (hfix : inp.fixedAction = some fa) :
    nnsForward cfg lg e inp d i = Except.ok
      (fa i,
       (if cfg.training = true then
          (logSoftmaxShifted lg e (removalRow inp i)).getD (fa i).1 0
        else 0) +
       (if cfg.training = true then
          (logSoftmaxShifted lg e (reinsMaskedFlat inp i (fa i).1
              (inp.reinsTable i (fa i).1))).getD
            ((fa i).2.1 * gp1 inp + (fa i).2.2) 0
        else 0)) := by
  unfold nnsForward removalStage reinsTableChain reinsChoice
  rw [h1, h2, hfix]
  simp

/-- C4.  With `fixed_action` supplied, neither decoder samples: the
returned action equals `fixed_action` exactly, the removal log-probability
is gathered at its pair index, the reinsertion log-probability at the flat
cell index `p * (2n+1) + d`, and the whole step is independent of every
random draw. -/
theorem fixed_action_forced
    (cfg : Cfg) (lg e : ℚ → ℚ) (inp : Inputs) (d : Draws) (i : ℕ)
    (fa : ℕ → ℕ × ℕ × ℕ)
    (h1 : cfg.removalType = "NNS") (h2 : cfg.reinsType = "NNS")
    (hfix : inp.fixedAction = some fa) :
    (∀ r, nnsForward cfg lg e inp d i = Except.ok r →
      r.1 = fa i ∧
      (cfg.training = true →
        r.2 = (logSoftmaxShifted lg e (removalRow inp i)).getD (fa i).1 0 +
          (logSoftmaxShifted lg e (reinsMaskedFlat inp i (fa i).1
              (inp.reinsTable i (fa i).1))).getD
            ((fa i).2.1 * gp1 inp + (fa i).2.2) 0)) ∧
    (∀ d2 d3 : Draws,
      nnsForward cfg lg e inp d2 i = nnsForward cfg lg e inp d3 i) := by
  constructor
  · intro r hr
    rw [nnsForward_fixed_eq cfg lg e inp d i fa h1 h2 hfix] at hr
    cases Except.ok.inj hr
    exact ⟨rfl, fun htr => by simp [htr]⟩
  · intro d2 d3
    rw [nnsForward_fixed_eq cfg lg e inp d2 i fa h1 h2 hfix,
      nnsForward_fixed_eq cfg lg e inp d3 i fa h1 h2 hfix]

/-- Fixed action and inputs for the C4 witness. -/
def faW4 : ℕ → ℕ × ℕ × ℕ := fun _ => (1, 2, 3)

/-- Inputs for the C4 witness. -/
def inpW4 : Inputs :=
  ⟨2, fun _ _ => 0, fun _ _ => 0, fun _ _ _ _ => 0, fun _ _ _ _ => 0,
   fun _ _ _ _ => false, none, some faW4⟩

/-- Witness for C4 at a concrete instance. -/
theorem fixed_action_forced_witness :
    inpW4.fixedAction = some faW4 ∧
    ((∀ r, nnsForward ⟨"NNS", "NNS", true⟩ lgW eW inpW4 dW0 0 =
        Except.ok r →
      r.1 = faW4 0 ∧
      ((true : Bool) = true →
        r.2 = (logSoftmaxShifted lgW eW (removalRow inpW4 0)).getD
            (faW4 0).1 0 +
          (logSoftmaxShifted lgW eW (reinsMaskedFlat inpW4 0 (faW4 0).1
              (inpW4.reinsTable 0 (faW4 0).1))).getD
            ((faW4 0).2.1 * gp1 inpW4 + (faW4 0).2.2) 0)) ∧
    (∀ d2 d3 : Draws,
      nnsForward ⟨"NNS", "NNS", true⟩ lgW eW inpW4 d2 0 =
        nnsForward ⟨"NNS", "NNS", true⟩ lgW eW inpW4 d3 0)) :=
  ⟨rfl, fixed_action_forced ⟨"NNS", "NNS", true⟩ lgW eW inpW4 dW0 0 faW4
    rfl rfl rfl⟩

/-- C5.  The step log-likelihood is assembled per decoder (lines 634-638
and 758-764): with the trained policy in training mode it is the sum of the
removal log-softmax entry at the chosen pair and the reinsertion
log-softmax entry at the flat index of the chosen cell; outside training it
is `0`; and on a step whose both selection policies are non-trainable
(`'random'` or `'greedy'`) it is `0` as well. -/
theorem logll_assembly (cfg : Cfg) (lg e : ℚ → ℚ) (inp : Inputs) (d : Draws)
    (i : ℕ) :
    (cfg.training = true → cfg.removalType = "NNS" → cfg.reinsType = "NNS" →
      ∀ r, nnsForward cfg lg e inp d i = Except.ok r →
        r.2 = (logSoftmaxShifted lg e (removalRow inp i)).getD r.1.1 0 +
          (logSoftmaxShifted lg e (reinsMaskedFlat inp i r.1.1
              (inp.reinsTable i r.1.1))).getD
            (r.1.2.1 * gp1 inp + r.1.2.2) 0) ∧
    (cfg.training = false →
      ∀ r, nnsForward cfg lg e inp d i = Except.ok r → r.2 = 0) ∧
    ((cfg.removalType = "random" ∨ cfg.removalType = "greedy") →
     (cfg.reinsType = "random" ∨ cfg.reinsType = "greedy") →
      ∀ r, nnsForward cfg lg e inp d i = Except.ok r → r.2 = 0) := by
  refine ⟨?_, ?_, ?_⟩
  · intro htr h1 h2 r hr
    have hdm : reinsPickNNS e inp d i (removalPickNNS e inp d i) / gp1 inp *
        gp1 inp + reinsPickNNS e inp d i (removalPickNNS e inp d i) %
        gp1 inp = reinsPickNNS e inp d i (removalPickNNS e inp d i) := by
      rw [Nat.mul_comm]
      exact Nat.div_add_mod _ _
    cases hfix : inp.fixedAction with
    | none =>
      rw [nnsForward_nns_eq cfg lg e inp d i h1 h2 hfix] at hr
      cases Except.ok.inj hr
      simp only [htr, eq_self_iff_true, if_true, hdm]
    | some fa =>
      rw [nnsForward_fixed_eq cfg lg e inp d i fa h1 h2 hfix] at hr
      cases Except.ok.inj hr
      simp only [htr, eq_self_iff_true, if_true]
  · intro htr r hr
    unfold nnsForward at hr
    rw [htr] at hr
    simp only [Bool.false_eq_true, false_and, if_false] at hr
    repeat' split at hr
    all_goals
      first
        | exact Except.noConfusion hr
        | (cases Except.ok.inj hr; simp)
  · intro hrm hri r hr
    have hrm2 : ¬ cfg.removalType = "NNS" := by
      rcases hrm with h | h <;> rw [h] <;> decide
    have hri2 : ¬ cfg.reinsType = "NNS" := by
      rcases hri with h | h <;> rw [h] <;> decide
    unfold nnsForward at hr
    simp only [eq_false hrm2, eq_false hri2, and_false, if_false] at hr
    repeat' split at hr
    all_goals
      first
        | exact Except.noConfusion hr
        | (cases Except.ok.inj hr; simp)

/-- Witness for C5 at a concrete instance (trained policy, training mode,
fixed action so the chosen indices are explicit). -/
theorem logll_assembly_witness :
    (true : Bool) = true ∧
    (∀ r, nnsForward ⟨"NNS", "NNS", true⟩ lgW eW inpW4 dW0 0 =
        Except.ok r →
      r.2 = (logSoftmaxShifted lgW eW (removalRow inpW4 0)).getD r.1.1 0 +
        (logSoftmaxShifted lgW eW (reinsMaskedFlat inpW4 0 r.1.1
            (inpW4.reinsTable 0 r.1.1))).getD
          (r.1.2.1 * gp1 inpW4 + r.1.2.2) 0) :=
  ⟨rfl,
   (logll_assembly ⟨"NNS", "NNS", true⟩ lgW eW inpW4 dW0 0).1 rfl rfl rfl⟩

/-- Inputs for the C6 failing-configuration theorem. -/
def inpC6 : Inputs :=
  ⟨1, fun _ _ => 0, fun _ _ => 0, fun _ _ _ _ => 0, fun _ _ _ _ => 0,
   fun _ _ _ _ => false, none, none⟩

/-- C6 (code bug).  The reinsertion branch chain of lines 648-717 tests
`TYPE_REMOVAL` instead of `TYPE_REINSERTION` in its third guard (line 659),
so the documented configurations `TYPE_REINSERTION = 'greedy'` with
`TYPE_REMOVAL` equal to `'NNS'` or `'random'` fall through to the
`assert False` of line 717 instead of completing a step: the decoder raises
`AssertionError` on every input in these configurations. -/
theorem reins_greedy_branch_bug :
    nnsForward ⟨"NNS", "greedy", true⟩ lgW eW inpC6 dW0 0 =
      Except.error "assert False" ∧
    nnsForward ⟨"random", "greedy", true⟩ lgW eW inpC6 dW0 0 =
      Except.error "assert False" :=
  ⟨by rfl, by rfl⟩

/-- C10 (amended).  The `.squeeze()` calls of lines 421, 511 and 570 keep
the leading batch dimension only when no dimension has extent one: for
`batch_size ≥ 2` and `n ≥ 2` the removal logit table is `(batch_size, n)`
and the reinsertion logit table `(batch_size, 2n+1, 2n+1)`; at
`batch_size = 1` those dimensions are dropped (see the counterexample), so
the per-batch indexing of line 575 is not well-formed for a singleton
batch. -/
theorem logit_batchdim_amended (b n : ℕ) (hb : 2 ≤ b) (hn : 2 ≤ n) :
    removalTableShape b n = [b, n] ∧
    reinsTableShape b (2 * n + 1) = [b, 2 * n + 1, 2 * n + 1] := by
  have hb1 : (b != 1) = true := by simp [bne_iff_ne]; omega
  have hn1 : (n != 1) = true := by simp [bne_iff_ne]; omega
  have hN1 : (2 * n + 1 != 1) = true := by simp [bne_iff_ne]; omega
  constructor
  · simp [removalTableShape, torchSqueeze, List.filter, hb1, hn1]
  · simp [reinsTableShape, torchSqueeze, List.filter, hb1, hN1]

/-- Witness for the amended C10. -/
theorem logit_batchdim_amended_witness :
    2 ≤ 4 ∧
    (removalTableShape 4 2 = [4, 2] ∧
      reinsTableShape 4 (2 * 2 + 1) = [4, 2 * 2 + 1, 2 * 2 + 1]) :=
  ⟨by decide, logit_batchdim_amended 4 2 (by decide) (by decide)⟩

/-- Counterexample to C10 as stated: at `batch_size = 1` the `.squeeze()`
calls drop the leading batch dimension of both logit tables (for `n = 2`,
`2n+1 = 5`), so the tables do NOT keep shapes `(1, n)` and `(1, 2n+1,
2n+1)`, and the two-tensor indexing of line 575 (which needs rank at least
2) is ill-formed. -/
theorem logit_batchdim_cex :
    removalTableShape 1 2 = [2] ∧ reinsTableShape 1 5 = [5, 5] ∧
    removalTableShape 1 2 ≠ [1, 2] ∧ reinsTableShape 1 5 ≠ [1, 5, 5] ∧
    ¬ 2 ≤ (removalTableShape 1 2).length := by
  refine ⟨by decide, by decide, by decide, by decide, by decide⟩

/-! Lemmas about the positional-state simulation. -/

lemma simRun_succ (half : ℕ) (sol : ℕ → ℕ) (t : ℕ) :
    simRun half sol (t + 1) = simStep half sol (simRun half sol t) t := by
  unfold simRun
  rw [List.range_succ, List.foldl_append]
  rfl

lemma simRun_pre (half : ℕ) (sol : ℕ → ℕ) :
    ∀ t, (simRun half sol t).pre = sol^[t] 0 := by
  intro t
  induction t with
  | zero => rfl
  | succ t ih =>
    rw [simRun_succ, Function.iterate_succ_apply']
    show sol (simRun half sol t).pre = sol (sol^[t] 0)
    rw [ih]

/-- The node walked to at loop counter `t`. -/
lemma simRun_cur (half : ℕ) (sol : ℕ → ℕ) (t : ℕ) :
    sol (simRun half sol t).pre = seqN sol t := by
  rw [simRun_pre, seqN, Function.iterate_succ_apply']

lemma visit_simRun (half : ℕ) (sol : ℕ → ℕ) :
    ∀ t j, j < t → (∀ j2, j < j2 → j2 < t → seqN sol j2 ≠ seqN sol j) →
      (simRun half sol t).visit (seqN sol j) = j + 1 := by
  intro t
  induction t with
  | zero => intro j hj; omega
  | succ t ih =>
    intro j hj hnorev
    rw [simRun_succ]
    show (if seqN sol j = sol (simRun half sol t).pre then t + 1
      else (simRun half sol t).visit (seqN sol j)) = j + 1
    rw [simRun_cur half sol t]
    by_cases hjt : j = t
    · subst hjt
      rw [if_pos rfl]
    · have hjlt : j < t := by omega
      rw [if_neg (fun hc => hnorev t hjlt (Nat.lt_succ_self t) hc.symm)]
      exact ih j hjlt fun j2 h1 h2 => hnorev j2 h1 (Nat.lt_succ_of_lt h2)

/-- Inputs never visited keep visit index `0`. -/
lemma visit_simRun_unvisited (half : ℕ) (sol : ℕ → ℕ) (node : ℕ) :
    ∀ t, (∀ j, j < t → seqN sol j ≠ node) →
      (simRun half sol t).visit node = 0 := by
  intro t
  induction t with
  | zero => intro _; rfl
  | succ t ih =>
    intro hmiss
    rw [simRun_succ]
    show (if node = sol (simRun half sol t).pre then t + 1
      else (simRun half sol t).visit node) = 0
    rw [simRun_cur half sol t,
      if_neg (fun hc => hmiss t (Nat.lt_succ_self t) hc.symm)]
    exact ih fun j hj => hmiss j (Nat.lt_succ_of_lt hj)

/-- C7 (amended).  For a valid single-cycle tour, the encoder ranks the
nodes `1 .. 2n+1` along the cycle starting from the depot successor, but
line 1100 returns the ranks reduced modulo `2n+1`: the depot (rank `2n+1`)
receives value `0`, every other node its rank in `1 .. 2n`, and the
returned values are pairwise distinct and all below `2n+1`. -/
theorem visit_index_amended (half : ℕ) (sol : ℕ → ℕ)
    (hinj : ∀ j1, j1 < 2 * half + 1 → ∀ j2, j2 < 2 * half + 1 →
      seqN sol j1 = seqN sol j2 → j1 = j2)
    (hcyc : seqN sol (2 * half) = 0) :
    visitIndexOut half sol 0 = 0 ∧
    (∀ j, j < 2 * half → visitIndexOut half sol (seqN sol j) = j + 1) ∧
    (∀ j, j < 2 * half + 1 → visitIndexOut half sol (seqN sol j) < 2 * half + 1) ∧
    (∀ j1, j1 < 2 * half + 1 → ∀ j2, j2 < 2 * half + 1 →
      visitIndexOut half sol (seqN sol j1) = visitIndexOut half sol (seqN sol j2) →
      j1 = j2) := by
  have hraw : ∀ j, j < 2 * half + 1 →
      (simRun half sol (2 * half + 1)).visit (seqN sol j) = j + 1 := by
    intro j hj
    apply visit_simRun half sol (2 * half + 1) j hj
    intro j2 h1 h2 hc
    exact absurd (hinj j2 h2 j (by omega) hc) (by omega)
  have hout : ∀ j, j < 2 * half + 1 →
      visitIndexOut half sol (seqN sol j) = (j + 1) % (2 * half + 1) := by
    intro j hj
    rw [visitIndexOut, hraw j hj]
  constructor
  · have h0 : visitIndexOut half sol (seqN sol (2 * half)) = 0 := by
      rw [hout (2 * half) (by omega), Nat.mod_self]
    rwa [hcyc] at h0
  refine ⟨?_, ?_, ?_⟩
  · intro j hj
    rw [hout j (by omega), Nat.mod_eq_of_lt (by omega)]
  · intro j hj
    rw [hout j hj]
    exact Nat.mod_lt _ (by omega)
  · intro j1 h1 j2 h2 heq
    rw [hout j1 h1, hout j2 h2] at heq
    rcases Nat.lt_or_ge j1 (2 * half) with hj1 | hj1 <;>
      rcases Nat.lt_or_ge j2 (2 * half) with hj2 | hj2
    · rw [Nat.mod_eq_of_lt (by omega), Nat.mod_eq_of_lt (by omega)] at heq
      omega
    · have hj2e : j2 = 2 * half := by omega
      subst hj2e
      rw [Nat.mod_eq_of_lt (by omega), Nat.mod_self] at heq
      omega
    · have hj1e : j1 = 2 * half := by omega
      subst hj1e
      rw [Nat.mod_self, Nat.mod_eq_of_lt (by omega)] at heq
      omega
    · omega

/-- The tour `0 → 1 → 2 → 0` on three nodes (one request pair). -/
def solC7 : ℕ → ℕ := fun x => if x = 0 then 1 else if x = 1 then 2 else 0

/-- Witness for the amended C7 on the concrete tour `0 → 1 → 2 → 0`. -/
theorem visit_index_amended_witness :
    seqN solC7 2 = 0 ∧
    (visitIndexOut 1 solC7 0 = 0 ∧
      (∀ j, j < 2 * 1 → visitIndexOut 1 solC7 (seqN solC7 j) = j + 1) ∧
      (∀ j, j < 2 * 1 + 1 →
        visitIndexOut 1 solC7 (seqN solC7 j) < 2 * 1 + 1) ∧
      (∀ j1, j1 < 2 * 1 + 1 → ∀ j2, j2 < 2 * 1 + 1 →
        visitIndexOut 1 solC7 (seqN solC7 j1) =
          visitIndexOut 1 solC7 (seqN solC7 j2) → j1 = j2)) :=
  ⟨by decide, visit_index_amended 1 solC7 (by decide) (by decide)⟩

/-- Counterexample to C7 as stated: on the valid single-cycle tour
`0 → 1 → 2 → 0` (so `2n+1 = 3`), the visit-index array the encoder returns
gives the depot the value `0`, which is NOT in `1 .. 2n+1`: line 1100
reduces the raw rank `3` modulo `3`. -/
theorem visit_index_cex :
    seqN solC7 0 = 1 ∧ seqN solC7 1 = 2 ∧ seqN solC7 2 = 0 ∧
    visitIndexOut 1 solC7 0 = 0 ∧ ¬ 1 ≤ visitIndexOut 1 solC7 0 := by
  refine ⟨by decide, by decide, by decide, by decide, by decide⟩

/-! Lemmas about `argsort` on permutations (C8). -/

lemma argsortL_perm (s : List ℕ) : (argsortL s).Perm (List.range s.length) :=
  List.mergeSort_perm _ _

lemma argsortL_length (s : List ℕ) : (argsortL s).length = s.length := by
  rw [(argsortL_perm s).length_eq, List.length_range]

lemma argsortL_mem_lt (s : List ℕ) {i : ℕ} (hi : i ∈ argsortL s) :
    i < s.length :=
  List.mem_range.1 ((argsortL_perm s).mem_iff.1 hi)

lemma argsortL_nodup (s : List ℕ) : (argsortL s).Nodup :=
  (argsortL_perm s).nodup_iff.2 (List.nodup_range _)

lemma argsortL_sorted (s : List ℕ) :
    List.Pairwise (fun i j => s.getD i 0 ≤ s.getD j 0) (argsortL s) := by
  have h := @List.sorted_mergeSort ℕ
    (fun i j => decide (s.getD i 0 ≤ s.getD j 0))
    (fun a b c hab hbc => by
      simp only [decide_eq_true_eq] at *
      exact le_trans hab hbc)
    (fun a b => by
      simp only [Bool.or_eq_true, decide_eq_true_eq]
      exact le_total _ _)
    (List.range s.length)
  refine h.imp ?_
  intro a b hab
  simpa using hab

/-- On a permutation of `0 .. N-1`, `argsort` maps rank `j` to the unique
index holding value `j`: composed with the permutation in either order it
is the identity, and it is the unique such list (C8). -/
theorem argsort_inverse (s : List ℕ)
    (hperm : s.Perm (List.range s.length)) :
    (argsortL s).length = s.length ∧
    (∀ j, j < s.length → s.getD ((argsortL s).getD j 0) 0 = j) ∧
    (∀ i, i < s.length → (argsortL s).getD (s.getD i 0) 0 = i) ∧
    (∀ t : List ℕ, t.length = s.length →
      (∀ i, i < s.length → t.getD (s.getD i 0) 0 = i) → t = argsortL s) := by
  classical
  set n := s.length with hn
  have hsnodup : s.Nodup := hperm.nodup_iff.2 (List.nodup_range n)
  have hsinj : ∀ i1, i1 < n → ∀ i2, i2 < n →
      s.getD i1 0 = s.getD i2 0 → i1 = i2 := by
    intro i1 h1 i2 h2 heq
    rw [List.getD_eq_getElem _ _ h1, List.getD_eq_getElem _ _ h2] at heq
    exact (List.Nodup.getElem_inj_iff hsnodup).1 heq
  have hstrict : List.Pairwise
      (fun i j => s.getD i 0 < s.getD j 0) (argsortL s) := by
    have hne : List.Pairwise (fun i j : ℕ => i ≠ j) (argsortL s) :=
      argsortL_nodup s
    have hand := (argsortL_sorted s).and hne
    refine hand.imp_of_mem ?_
    intro a b ha hb hab
    refine lt_of_le_of_ne hab.1 ?_
    intro hc
    exact hab.2 (hsinj a (argsortL_mem_lt s ha) b (argsortL_mem_lt s hb) hc)
  have hmapeq : (List.range n).map (fun i => s.getD i 0) = s := by
    apply List.ext_getElem
    · simp [hn]
    · intro j h1 h2
      simp only [List.getElem_map, List.getElem_range]
      rw [List.getD_eq_getElem _ _ h2]
  have hmapperm : ((argsortL s).map fun i => s.getD i 0).Perm
      (List.range n) := by
    have h1 : ((argsortL s).map fun i => s.getD i 0).Perm
        ((List.range n).map fun i => s.getD i 0) := (argsortL_perm s).map _
    rw [hmapeq] at h1
    exact h1.trans hperm
  have hmapsorted : List.Pairwise (· < ·)
      ((argsortL s).map fun i => s.getD i 0) :=
    List.pairwise_map.2 hstrict
  haveI : IsAntisymm ℕ (· < ·) :=
    ⟨fun a b h1 h2 => absurd h1 (asymm h2)⟩
  have hmapid : ((argsortL s).map fun i => s.getD i 0) = List.range n :=
    List.eq_of_perm_of_sorted hmapperm hmapsorted (List.pairwise_lt_range n)
  have hAlen : (argsortL s).length = n := argsortL_length s
  have hcomp1 : ∀ j, j < n → s.getD ((argsortL s).getD j 0) 0 = j := by
    intro j hj
    have hjA : j < (argsortL s).length := by rw [hAlen]; exact hj
    have := congrArg (fun l => l.getD j 0) hmapid
    simp only at this
    rw [getD_map_of_lt _ _ j hjA 0 0] at this
    rw [this, List.getD_eq_getElem _ _ (by simpa using hj),
      List.getElem_range]
  have hsval : ∀ i, i < n → s.getD i 0 < n := by
    intro i hi
    have : s.getD i 0 ∈ s := by
      rw [List.getD_eq_getElem _ _ hi]
      exact List.getElem_mem hi
    exact List.mem_range.1 (hperm.mem_iff.1 this)
  have hcomp2 : ∀ i, i < n → (argsortL s).getD (s.getD i 0) 0 = i := by
    intro i hi
    have hv : s.getD i 0 < n := hsval i hi
    have hAv : (argsortL s).getD (s.getD i 0) 0 < n := by
      apply argsortL_mem_lt
      rw [List.getD_eq_getElem _ _ (by rw [hAlen]; exact hv)]
      exact List.getElem_mem _
    exact hsinj _ hAv _ hi (hcomp1 _ hv)
  refine ⟨hAlen, hcomp1, hcomp2, ?_⟩
  intro t htlen htinv
  apply List.ext_getElem (by rw [htlen, hAlen])
  intro j h1 h2
  have hjn : j < n := by rwa [htlen] at h1
  obtain ⟨i, hi, hieq⟩ : ∃ i, i < n ∧ s.getD i 0 = j := by
    have hjs : j ∈ s := hperm.mem_iff.2 (List.mem_range.2 hjn)
    obtain ⟨i, hi, hieq⟩ := List.mem_iff_getElem.1 hjs
    exact ⟨i, hi, by rw [List.getD_eq_getElem _ _ hi]; exact hieq⟩
  have ht : t.getD j 0 = i := by rw [← hieq]; exact htinv i hi
  have hA : (argsortL s).getD j 0 = i := by rw [← hieq]; exact hcomp2 i hi
  rw [← List.getD_eq_getElem t 0 h1, ← List.getD_eq_getElem _ 0 h2, ht, hA]

/-- Witness for C8 on the permutation `[2, 0, 1]` (the successor encoding
of the tour `0 → 2 → 1 → 0`, the example of line 279). -/
theorem argsort_inverse_witness :
    ([2, 0, 1] : List ℕ).Perm (List.range 3) ∧
    ((argsortL [2, 0, 1]).length = ([2, 0, 1] : List ℕ).length ∧
      (∀ j, j < ([2, 0, 1] : List ℕ).length →
        ([2, 0, 1] : List ℕ).getD ((argsortL [2, 0, 1]).getD j 0) 0 = j) ∧
      (∀ i, i < ([2, 0, 1] : List ℕ).length →
        (argsortL [2, 0, 1]).getD (([2, 0, 1] : List ℕ).getD i 0) 0 = i) ∧
      (∀ t : List ℕ, t.length = ([2, 0, 1] : List ℕ).length →
        (∀ i, i < ([2, 0, 1] : List ℕ).length →
          t.getD (([2, 0, 1] : List ℕ).getD i 0) 0 = i) →
        t = argsortL [2, 0, 1])) :=
  ⟨by decide, argsort_inverse [2, 0, 1] (by decide)⟩

/-! Machinery for the stack-simulation invariant (C9). -/

lemma openedAt_succ (sol : ℕ → ℕ) (t k : ℕ) :
    openedAt sol (t + 1) k ↔ openedAt sol t k ∨ seqN sol t = k := by
  unfold openedAt
  constructor
  · rintro ⟨j, hj, hje⟩
    rcases Nat.lt_succ_iff_lt_or_eq.1 hj with h | h
    · exact Or.inl ⟨j, h, hje⟩
    · subst h; exact Or.inr hje
  · rintro (⟨j, hj, hje⟩ | h)
    · exact ⟨j, Nat.lt_succ_of_lt hj, hje⟩
    · exact ⟨t, Nat.lt_succ_self t, h⟩

lemma closedAt_succ (sol : ℕ → ℕ) (half t k : ℕ) :
    closedAt sol half (t + 1) k ↔
      closedAt sol half t k ∨ seqN sol t = k + half := by
  unfold closedAt
  constructor
  · rintro ⟨j, hj, hje⟩
    rcases Nat.lt_succ_iff_lt_or_eq.1 hj with h | h
    · exact Or.inl ⟨j, h, hje⟩
    · subst h; exact Or.inr hje
  · rintro (⟨j, hj, hje⟩ | h)
    · exact ⟨j, Nat.lt_succ_of_lt hj, hje⟩
    · exact ⟨t, Nat.lt_succ_self t, h⟩

lemma stackArr_succ (half : ℕ) (sol : ℕ → ℕ) (t : ℕ) :
    (simRun half sol (t + 1)).stackArr =
      (if seqN sol t ≤ half ∧ 0 < seqN sol t then
        updFn (simRun half sol t).stackArr (seqN sol t) ((t : ℚ) + 1)
      else if half < seqN sol t ∧ 0 < seqN sol t then
        updFn (simRun half sol t).stackArr (seqN sol t - half) (-(1 / 100))
      else (simRun half sol t).stackArr) := by
  rw [simRun_succ]
  show (if sol (simRun half sol t).pre ≤ half ∧
          0 < sol (simRun half sol t).pre then
        updFn (simRun half sol t).stackArr (sol (simRun half sol t).pre)
          ((t : ℚ) + 1)
      else if half < sol (simRun half sol t).pre ∧
          0 < sol (simRun half sol t).pre then
        updFn (simRun half sol t).stackArr
          (sol (simRun half sol t).pre - half) (-(1 / 100))
      else (simRun half sol t).stackArr) = _
  rw [simRun_cur half sol t]

lemma top2_succ (half : ℕ) (sol : ℕ → ℕ) (t : ℕ) :
    (simRun half sol (t + 1)).top2 (seqN sol t) =
      topk2 (half + 1) ((simRun half sol (t + 1)).stackArr) := by
  rw [stackArr_succ, simRun_succ]
  show (if seqN sol t = sol (simRun half sol t).pre then
        topk2 (half + 1) _ else (simRun half sol t).top2 (seqN sol t)) = _
  rw [simRun_cur half sol t, if_pos rfl]

lemma argmax_range_spec (m : ℕ) (st : ℕ → ℚ) (hm : 0 < m) :
    ∃ a, (List.range m).argmax st = some a ∧ a < m ∧
      ∀ b, b < m → st b ≤ st a := by
  cases hA : (List.range m).argmax st with
  | none =>
    exfalso
    have := List.argmax_eq_none.1 hA
    rw [List.range_eq_nil] at this
    omega
  | some a =>
    have hmem : a ∈ (List.range m).argmax st := by rw [hA]; rfl
    refine ⟨a, rfl, List.mem_range.1 (List.argmax_mem hmem), ?_⟩
    intro b hb
    exact List.le_of_mem_argmax (List.mem_range.2 hb) hmem

lemma argmax_range_ne_spec (m : ℕ) (st : ℕ → ℚ) (i1 : ℕ) (hm2 : 2 ≤ m) :
    ∃ a, ((List.range m).filter fun j => j != i1).argmax st = some a ∧
      a < m ∧ a ≠ i1 ∧ ∀ b, b < m → b ≠ i1 → st b ≤ st a := by
  have hwit : ∃ j0, j0 < m ∧ j0 ≠ i1 := by
    by_cases h : i1 = 0
    · exact ⟨1, by omega, by omega⟩
    · exact ⟨0, by omega, fun hc => h hc.symm⟩
  obtain ⟨j0, hj0m, hj0ne⟩ := hwit
  have hj0mem : j0 ∈ (List.range m).filter fun j => j != i1 := by
    rw [List.mem_filter]
    exact ⟨List.mem_range.2 hj0m, by simpa using hj0ne⟩
  cases hA : ((List.range m).filter fun j => j != i1).argmax st with
  | none =>
    exfalso
    have := List.argmax_eq_none.1 hA
    rw [this] at hj0mem
    cases hj0mem
  | some a =>
    have hmem : a ∈ ((List.range m).filter fun j => j != i1).argmax st := by
      rw [hA]; rfl
    have hamem := List.argmax_mem hmem
    rw [List.mem_filter] at hamem
    refine ⟨a, rfl, List.mem_range.1 hamem.1, by simpa using hamem.2, ?_⟩
    intro b hb hbne
    refine List.le_of_mem_argmax ?_ hmem
    rw [List.mem_filter]
    exact ⟨List.mem_range.2 hb, by simpa using hbne⟩

/-- Analysis of `stacks.topk(2)[1]` on a stack array whose depot slot is
`0`, whose open slots are strictly positive and whose closed slots are
strictly negative: the depot index `0` appears among the two returned
indices exactly when fewer than two slots are open, and the first returned
index is an open slot of maximal value whenever any slot is open. -/
lemma topk2_cases (half : ℕ) (st : ℕ → ℚ) (P : ℕ → Prop)
    (hhalf : 1 ≤ half)
    (h0 : st 0 = 0)
    (hpos : ∀ k, 1 ≤ k → k ≤ half → P k → 0 < st k)
    (hneg : ∀ k, 1 ≤ k → k ≤ half → ¬ P k → st k < 0) :
    (((topk2 (half + 1) st).1 = 0 ∨ (topk2 (half + 1) st).2 = 0) ↔
      ¬ ∃ k1 k2, k1 ≠ k2 ∧ (1 ≤ k1 ∧ k1 ≤ half ∧ P k1) ∧
        (1 ≤ k2 ∧ k2 ≤ half ∧ P k2)) ∧
    ((∃ k, 1 ≤ k ∧ k ≤ half ∧ P k) →
      1 ≤ (topk2 (half + 1) st).1 ∧ (topk2 (half + 1) st).1 ≤ half ∧
      P ((topk2 (half + 1) st).1) ∧
      ∀ k, 1 ≤ k → k ≤ half → P k → st k ≤ st ((topk2 (half + 1) st).1)) := by
  obtain ⟨a1, hA1, ha1m, ha1max⟩ := argmax_range_spec (half + 1) st (by omega)
  obtain ⟨a2, hA2, ha2m, ha2ne, ha2max⟩ :=
    argmax_range_ne_spec (half + 1) st a1 (by omega)
  have ht1 : (topk2 (half + 1) st).1 = a1 := by
    simp only [topk2, hA1, Option.getD_some]
  have ht2 : (topk2 (half + 1) st).2 = a2 := by
    simp only [topk2, hA1, Option.getD_some, hA2]
  rw [ht1, ht2]
  by_cases htwo : ∃ k1 k2, k1 ≠ k2 ∧ (1 ≤ k1 ∧ k1 ≤ half ∧ P k1) ∧
      (1 ≤ k2 ∧ k2 ≤ half ∧ P k2)
  · obtain ⟨k1, k2, hk12, ⟨hk11, hk12b, hP1⟩, ⟨hk21, hk22, hP2⟩⟩ := htwo
    have hsa1 : 0 < st a1 :=
      lt_of_lt_of_le (hpos k1 hk11 hk12b hP1) (ha1max k1 (by omega))
    have ha1ne0 : a1 ≠ 0 := fun hc => by
      rw [hc, h0] at hsa1
      exact lt_irrefl 0 hsa1
    have hPa1 : P a1 := by
      by_contra hc
      exact absurd (hneg a1 (by omega) (by omega) hc) (asymm hsa1)
    have hsa2 : 0 < st a2 := by
      by_cases hk1a : k1 = a1
      · have hk2a : k2 ≠ a1 := fun hc => hk12 (hk1a.trans hc.symm)
        exact lt_of_lt_of_le (hpos k2 hk21 hk22 hP2)
          (ha2max k2 (by omega) hk2a)
      · exact lt_of_lt_of_le (hpos k1 hk11 hk12b hP1)
          (ha2max k1 (by omega) hk1a)
    have ha2ne0 : a2 ≠ 0 := fun hc => by
      rw [hc, h0] at hsa2
      exact lt_irrefl 0 hsa2
    constructor
    · constructor
      · rintro (h | h)
        · exact absurd h ha1ne0
        · exact absurd h ha2ne0
      · intro hc
        exact absurd ⟨k1, k2, hk12, ⟨hk11, hk12b, hP1⟩,
          ⟨hk21, hk22, hP2⟩⟩ hc
    · intro _
      exact ⟨by omega, by omega, hPa1,
        fun k _ hk2b _ => ha1max k (by omega)⟩
  · by_cases hone : ∃ k, 1 ≤ k ∧ k ≤ half ∧ P k
    · obtain ⟨k1, hk11, hk12b, hP1⟩ := hone
      have huniq : ∀ k, 1 ≤ k → k ≤ half → P k → k = k1 := by
        intro k h1 h2 hPk
        by_contra hc
        exact htwo ⟨k, k1, hc, ⟨h1, h2, hPk⟩, ⟨hk11, hk12b, hP1⟩⟩
      have hsa1 : 0 < st a1 :=
        lt_of_lt_of_le (hpos k1 hk11 hk12b hP1) (ha1max k1 (by omega))
      have ha1ne0 : a1 ≠ 0 := fun hc => by
        rw [hc, h0] at hsa1
        exact lt_irrefl 0 hsa1
      have hPa1 : P a1 := by
        by_contra hc
        exact absurd (hneg a1 (by omega) (by omega) hc) (asymm hsa1)
      have ha1k1 : a1 = k1 := huniq a1 (by omega) (by omega) hPa1
      have ha2_0 : a2 = 0 := by
        by_contra hc
        have hnP : ¬ P a2 := fun hPa2 =>
          ha2ne (by rw [ha1k1]; exact huniq a2 (by omega) (by omega) hPa2)
        have hlt := hneg a2 (by omega) (by omega) hnP
        have hge : st 0 ≤ st a2 :=
          ha2max 0 (by omega) (fun hc0 => ha1ne0 hc0.symm)
        rw [h0] at hge
        linarith
      constructor
      · constructor
        · intro _; exact htwo
        · intro _; exact Or.inr ha2_0
      · intro _
        exact ⟨by omega, by omega, hPa1,
          fun k _ hk2b _ => ha1max k (by omega)⟩
    · have ha1_0 : a1 = 0 := by
        by_contra hc
        have hlt := hneg a1 (by omega) (by omega)
          (fun hP => hone ⟨a1, by omega, by omega, hP⟩)
        have hge : st 0 ≤ st a1 := ha1max 0 (by omega)
        rw [h0] at hge
        linarith
      constructor
      · constructor
        · intro _; exact htwo
        · intro _; exact Or.inl ha1_0
      · intro hc
        exact absurd hc hone

lemma openAt_succ_other (sol : ℕ → ℕ) (half t k : ℕ)
    (h1 : seqN sol t ≠ k) (h2 : seqN sol t ≠ k + half) :
    openAt sol half (t + 1) k ↔ openAt sol half t k := by
  unfold openAt
  rw [openedAt_succ, closedAt_succ]
  constructor
  · rintro ⟨ho | he, hc⟩
    · exact ⟨ho, fun hcl => hc (Or.inl hcl)⟩
    · exact absurd he h1
  · rintro ⟨ho, hc⟩
    refine ⟨Or.inl ho, ?_⟩
    rintro (hcl | hcl)
    · exact hc hcl
    · exact h2 hcl

/-- The strong stack invariant: under a valid single-cycle precedence-
respecting tour, after every prefix of the simulation the depot slot holds
`0`, every open pickup slot holds its opening time plus one, and every
closed or never-opened slot holds the `-0.01` sentinel. -/
lemma stack_sim_inv (half : ℕ) (sol : ℕ → ℕ) (hhalf : 1 ≤ half)
    (hrange : ∀ j, j < 2 * half + 1 → seqN sol j ≤ 2 * half)
    (hinj : ∀ j1, j1 < 2 * half + 1 → ∀ j2, j2 < 2 * half + 1 →
      seqN sol j1 = seqN sol j2 → j1 = j2)
    (hprec : ∀ k, 1 ≤ k → k ≤ half → ∀ jd, jd < 2 * half + 1 →
      seqN sol jd = k + half → ∃ jp, jp < jd ∧ seqN sol jp = k) :
    ∀ t, t ≤ 2 * half + 1 →
      (simRun half sol t).stackArr 0 = 0 ∧
      (∀ k, 1 ≤ k → k ≤ half →
        (openAt sol half t k →
          ∃ j, j < t ∧ seqN sol j = k ∧
            (simRun half sol t).stackArr k = (j : ℚ) + 1) ∧
        (¬ openAt sol half t k →
          (simRun half sol t).stackArr k = -(1 / 100))) := by
  intro t
  induction t with
  | zero =>
    intro _
    constructor
    · show (if (0 : ℕ) = 0 then (0 : ℚ) else -(1 / 100)) = 0
      rw [if_pos rfl]
    · intro k hk1 _
      constructor
      · rintro ⟨⟨j, hj, _⟩, _⟩
        omega
      · intro _
        show (if k = 0 then (0 : ℚ) else -(1 / 100)) = -(1 / 100)
        rw [if_neg (by omega)]
  | succ t ih =>
    intro ht
    have htN : t < 2 * half + 1 := by omega
    obtain ⟨ih0, ihk⟩ := ih (by omega)
    have hcur : seqN sol t ≤ 2 * half := hrange t htN
    rw [stackArr_succ]
    by_cases hA : seqN sol t ≤ half ∧ 0 < seqN sol t
    · rw [if_pos hA]
      refine ⟨?_, ?_⟩
      · show updFn (simRun half sol t).stackArr (seqN sol t)
            ((t : ℚ) + 1) 0 = 0
        rw [updFn, if_neg (by omega)]
        exact ih0
      · intro k hk1 hk2
        by_cases hkc : k = seqN sol t
        · constructor
          · intro _
            refine ⟨t, Nat.lt_succ_self t, hkc.symm, ?_⟩
            rw [updFn, if_pos hkc]
          · intro hno
            exfalso
            apply hno
            refine ⟨⟨t, Nat.lt_succ_self t, hkc.symm⟩, ?_⟩
            rintro ⟨jd, hjd, hje⟩
            rcases Nat.lt_succ_iff_lt_or_eq.1 hjd with hjd2 | hjd2
            · obtain ⟨jp, hjp, hjpe⟩ :=
                hprec k hk1 hk2 jd (by omega) hje
              have : jp = t :=
                hinj jp (by omega) t htN (by rw [hjpe, hkc])
              omega
            · subst hjd2
              rw [← hkc] at hje
              omega
        · have h2 : seqN sol t ≠ k + half := by omega
          have hiff := openAt_succ_other sol half t k
            (fun hc => hkc hc.symm) h2
          constructor
          · intro hop
            obtain ⟨j, hj, hjeq, hval⟩ := (ihk k hk1 hk2).1 (hiff.1 hop)
            refine ⟨j, by omega, hjeq, ?_⟩
            rw [updFn, if_neg hkc]
            exact hval
          · intro hno
            rw [updFn, if_neg hkc]
            exact (ihk k hk1 hk2).2 (fun ho => hno (hiff.2 ho))
    · rw [if_neg hA]
      by_cases hB : half < seqN sol t ∧ 0 < seqN sol t
      · rw [if_pos hB]
        refine ⟨?_, ?_⟩
        · show updFn (simRun half sol t).stackArr (seqN sol t - half)
              (-(1 / 100)) 0 = 0
          rw [updFn, if_neg (by omega)]
          exact ih0
        · intro k hk1 hk2
          by_cases hkc : k = seqN sol t - half
          · have hclose : seqN sol t = k + half := by omega
            constructor
            · intro hop
              exfalso
              exact hop.2 ⟨t, Nat.lt_succ_self t, hclose⟩
            · intro _
              rw [updFn, if_pos hkc]
          · have h1 : seqN sol t ≠ k := by omega
            have h2 : seqN sol t ≠ k + half := by omega
            have hiff := openAt_succ_other sol half t k h1 h2
            constructor
            · intro hop
              obtain ⟨j, hj, hjeq, hval⟩ := (ihk k hk1 hk2).1 (hiff.1 hop)
              refine ⟨j, by omega, hjeq, ?_⟩
              rw [updFn, if_neg hkc]
              exact hval
            · intro hno
              rw [updFn, if_neg hkc]
              exact (ihk k hk1 hk2).2 (fun ho => hno (hiff.2 ho))
      · rw [if_neg hB]
        have hc0 : seqN sol t = 0 := by omega
        refine ⟨ih0, ?_⟩
        intro k hk1 hk2
        have h1 : seqN sol t ≠ k := by omega
        have h2 : seqN sol t ≠ k + half := by omega
        have hiff := openAt_succ_other sol half t k h1 h2
        constructor
        · intro hop
          obtain ⟨j, hj, hjeq, hval⟩ := (ihk k hk1 hk2).1 (hiff.1 hop)
          exact ⟨j, by omega, hjeq, hval⟩
        · intro hno
          exact (ihk k hk1 hk2).2 (fun ho => hno (hiff.2 ho))

/-- C9.  Throughout the stack simulation of
`EmbeddingNet._position_embedding` on a valid single-cycle tour respecting
pickup-before-delivery precedence: the depot slot of the stack array stays
at `0`, open pickup slots are strictly positive, closed or never-opened
slots strictly negative; and at the moment each node is visited, index `0`
appears in its recorded top-2 pair exactly when fewer than two pickups are
open, while the first entry of the pair is the most recently opened
still-open pickup whenever one exists. -/
theorem stack_top2_invariant (half : ℕ) (sol : ℕ → ℕ) (hhalf : 1 ≤ half)
    (hrange : ∀ j, j < 2 * half + 1 → seqN sol j ≤ 2 * half)
    (hinj : ∀ j1, j1 < 2 * half + 1 → ∀ j2, j2 < 2 * half + 1 →
      seqN sol j1 = seqN sol j2 → j1 = j2)
    (hprec : ∀ k, 1 ≤ k → k ≤ half → ∀ jd, jd < 2 * half + 1 →
      seqN sol jd = k + half → ∃ jp, jp < jd ∧ seqN sol jp = k) :
    (∀ t, t ≤ 2 * half + 1 →
      (simRun half sol t).stackArr 0 = 0 ∧
      ∀ k, 1 ≤ k → k ≤ half →
        (openAt sol half t k → 0 < (simRun half sol t).stackArr k) ∧
        (¬ openAt sol half t k → (simRun half sol t).stackArr k < 0)) ∧
    (∀ t, t < 2 * half + 1 →
      ((((simRun half sol (t + 1)).top2 (seqN sol t)).1 = 0 ∨
        ((simRun half sol (t + 1)).top2 (seqN sol t)).2 = 0) ↔
        ¬ twoOpen sol half (t + 1)) ∧
      ((∃ k, 1 ≤ k ∧ k ≤ half ∧ openAt sol half (t + 1) k) →
        ∃ k0 j, 1 ≤ k0 ∧ k0 ≤ half ∧ openAt sol half (t + 1) k0 ∧
          ((simRun half sol (t + 1)).top2 (seqN sol t)).1 = k0 ∧
          j < t + 1 ∧ seqN sol j = k0 ∧
          ∀ k2 j2, 1 ≤ k2 → k2 ≤ half → openAt sol half (t + 1) k2 →
            j2 < t + 1 → seqN sol j2 = k2 → j2 ≤ j)) := by
  have hinv := stack_sim_inv half sol hhalf hrange hinj hprec
  constructor
  · intro t ht
    obtain ⟨h0, hk⟩ := hinv t ht
    refine ⟨h0, fun k hk1 hk2 => ⟨?_, ?_⟩⟩
    · intro hop
      obtain ⟨j, _, _, hval⟩ := (hk k hk1 hk2).1 hop
      rw [hval]
      positivity
    · intro hno
      rw [(hk k hk1 hk2).2 hno]
      norm_num
  · intro t ht
    obtain ⟨h0, hk⟩ := hinv (t + 1) (by omega)
    rw [top2_succ half sol t]
    have hcase := topk2_cases half ((simRun half sol (t + 1)).stackArr)
      (openAt sol half (t + 1)) hhalf h0
      (fun k h1 h2 hP => by
        obtain ⟨j, _, _, hval⟩ := (hk k h1 h2).1 hP
        rw [hval]
        positivity)
      (fun k h1 h2 hn => by
        rw [(hk k h1 h2).2 hn]
        norm_num)
    constructor
    · exact hcase.1
    · intro hex
      obtain ⟨ha1, ha2, hPa1, hmax⟩ := hcase.2 hex
      obtain ⟨j, hj, hjeq, hval⟩ := (hk _ ha1 ha2).1 hPa1
      refine ⟨(topk2 (half + 1) ((simRun half sol (t + 1)).stackArr)).1, j,
        ha1, ha2, hPa1, rfl, hj, hjeq, ?_⟩
      intro k2 j2 h1 h2 hop2 hj2 hj2eq
      obtain ⟨j3, hj3, hj3eq, hval3⟩ := (hk k2 h1 h2).1 hop2
      have hj23 : j2 = j3 :=
        hinj j2 (by omega) j3 (by omega) (by rw [hj2eq, hj3eq])
      have hle := hmax k2 h1 h2 hop2
      rw [hval3, hval] at hle
      have hcast : (j3 : ℚ) ≤ (j : ℚ) := by linarith
      have : j3 ≤ j := by exact_mod_cast hcast
      omega

/-- The LIFO-valid tour `0 → 1 → 2 → 4 → 3 → 0` on five nodes (pickups
`1, 2`, deliveries `3, 4`). -/
def solC9 : ℕ → ℕ := fun x =>
  if x = 0 then 1 else if x = 1 then 2 else if x = 2 then 4
  else if x = 4 then 3 else 0

/-- Witness for C9 on the concrete tour `0 → 1 → 2 → 4 → 3 → 0`. -/
theorem stack_top2_invariant_witness :
    (1 ≤ 2 ∧
      (∀ j, j < 2 * 2 + 1 → seqN solC9 j ≤ 2 * 2) ∧
      (∀ k, 1 ≤ k → k ≤ 2 → ∀ jd, jd < 2 * 2 + 1 →
        seqN solC9 jd = k + 2 → ∃ jp, jp < jd ∧ seqN solC9 jp = k)) ∧
    ((∀ t, t ≤ 2 * 2 + 1 →
      (simRun 2 solC9 t).stackArr 0 = 0 ∧
      ∀ k, 1 ≤ k → k ≤ 2 →
        (openAt solC9 2 t k → 0 < (simRun 2 solC9 t).stackArr k) ∧
        (¬ openAt solC9 2 t k → (simRun 2 solC9 t).stackArr k < 0)) ∧
    (∀ t, t < 2 * 2 + 1 →
      ((((simRun 2 solC9 (t + 1)).top2 (seqN solC9 t)).1 = 0 ∨
        ((simRun 2 solC9 (t + 1)).top2 (seqN solC9 t)).2 = 0) ↔
        ¬ twoOpen solC9 2 (t + 1)) ∧
      ((∃ k, 1 ≤ k ∧ k ≤ 2 ∧ openAt solC9 2 (t + 1) k) →
        ∃ k0 j, 1 ≤ k0 ∧ k0 ≤ 2 ∧ openAt solC9 2 (t + 1) k0 ∧
          ((simRun 2 solC9 (t + 1)).top2 (seqN solC9 t)).1 = k0 ∧
          j < t + 1 ∧ seqN solC9 j = k0 ∧
          ∀ k2 j2, 1 ≤ k2 → k2 ≤ 2 → openAt solC9 2 (t + 1) k2 →
            j2 < t + 1 → seqN solC9 j2 = k2 → j2 ≤ j))) :=
  ⟨⟨by decide, by decide, by decide⟩,
   stack_top2_invariant 2 solC9 (by decide) (by decide) (by decide)
    (by decide)⟩

end NIS
